import Mathlib

/-!
# Verification of `ConcurrentHashMap` (src/lock_free_hash_table.h)

Shallow embedding of the sharded hash map from `src/lock_free_hash_table.h`,
together with proofs of its sequential (quiescent-point) properties.

Modelling conventions:
* Mutexes are elided: all claims are about sequential (single-threaded /
  quiescent-point) executions, so locking has no observable effect.
* `size_t` values are modelled as `Nat`; the claims under verification never
  exercise machine-word wrap-around.  The one reachable arithmetic fault of
  the source, division/modulo by zero (possible when `count_threads_` is 0),
  is modelled explicitly: `GetHash` returns `Option Nat`, `none` on a zero
  modulus, and the operations propagate that failure.
* `kDefaultConcurrencyLevel` is `std::thread::hardware_concurrency()`, a
  runtime value; it is threaded through as an explicit parameter `D`.
* `std::vector` becomes `List`; unchecked `operator[]` becomes `List.getD`
  (all theorems are proved under the well-formedness invariant that keeps
  every index in bounds, matching the defined executions of the source).
-/

namespace LockFreeHashTable

/-- Constant `kDefaultSize = 29` (default bucket count per shard). -/
def kDefaultSize : Nat := 29

/-- Constant `kLimitCollisions = 25` (bucket chain length that triggers a rehash). -/
def kLimitCollisions : Nat := 25

/-- Nested storage: shards, then buckets, then chained `(key, value)` entries.
Mirrors `std::vector<std::vector<std::vector<std::pair<K, V>>>> storage_`. -/
abbrev Storage (K V : Type) := List (List (List (K × V)))

/-- The state of a `ConcurrentHashMap<K, V, Hash>` object.  Field names follow
the C++ members; the hash functor `hash_function_` is a plain function. -/
structure ConcurrentHashMap (K V : Type) where
  count_threads_ : Nat
  storage_size_ : Nat
  size_ : Nat
  hash_function_ : K → Nat
  storage_ : Storage K V

variable {K V : Type}

/-- Read bucket `(e, i)` of a storage (C++ `storage_[e][i]`, unchecked). -/
def getBucket (st : Storage K V) (e i : Nat) : List (K × V) :=
  (st.getD e []).getD i []

/-- Overwrite bucket `(e, i)` of a storage. -/
def setBucket (st : Storage K V) (e i : Nat) (b : List (K × V)) : Storage K V :=
  st.set e ((st.getD e []).set i b)

/-- Append an entry to bucket `(e, i)` (C++ `storage_[e][i].emplace_back(...)`). -/
def pushBucket (st : Storage K V) (e i : Nat) (kv : K × V) : Storage K V :=
  setBucket st e i (getBucket st e i ++ [kv])

/-- All entries of a storage, in shard-major, bucket-major order (the order the
triple loop of `Rehashing` visits them). -/
def allEntries (st : Storage K V) : List (K × V) :=
  (st.map List.flatten).flatten

namespace ConcurrentHashMap

/-- Default constructor `ConcurrentHashMap(hasher)`: `D` is the runtime value
of `kDefaultConcurrencyLevel` (`std::thread::hardware_concurrency()`). -/
def mkDefault (D : Nat) (hasher : K → Nat) : ConcurrentHashMap K V :=
  { count_threads_ := D
    storage_size_ := kDefaultSize
    size_ := 0
    hash_function_ := hasher
    storage_ := List.replicate D (List.replicate kDefaultSize []) }

/-- Constructor `ConcurrentHashMap(expected_size, hasher)`.
`storage_size_ = max(kDefaultSize, (expected_size + count_threads_ - 1) / count_threads_)`. -/
def mkExpected (D : Nat) (expected_size : Nat) (hasher : K → Nat) :
    ConcurrentHashMap K V :=
  let s := max kDefaultSize ((expected_size + D - 1) / D)
  { count_threads_ := D
    storage_size_ := s
    size_ := 0
    hash_function_ := hasher
    storage_ := List.replicate D (List.replicate s []) }

/-- Constructor `ConcurrentHashMap(expected_size, expected_threads_count, hasher)`,
totalized: `count_threads_ = min(kDefaultConcurrencyLevel, expected_threads_count)`,
then `storage_size_` as in `mkExpected`.  When the capped thread count is zero
the source divides by zero inside the constructor itself (line 37), so this
total function (whose `Nat` division then returns 0) is faithful only on the
domain `0 < min D expected_threads_count`; the guarded embedding of the
constructor, surfacing that construction-time fault as `none`, is
`mkExpectedThreadsChecked` below. -/
def mkExpectedThreads (D : Nat) (expected_size : Nat) (expected_threads_count : Nat)
    (hasher : K → Nat) : ConcurrentHashMap K V :=
  let t := min D expected_threads_count
  let s := max kDefaultSize ((expected_size + t - 1) / t)
  { count_threads_ := t
    storage_size_ := s
    size_ := 0
    hash_function_ := hasher
    storage_ := List.replicate t (List.replicate s []) }

/-- Member constructor `ConcurrentHashMap(expected_size, expected_threads_count,
hasher)` with its own fault made explicit: after capping
`count_threads_ = min(kDefaultConcurrencyLevel, expected_threads_count)`, the
source computes `(expected_size + count_threads_ - 1) / count_threads_` — a
division by zero at construction time whenever the capped count is zero,
surfaced here as `none` (the same guard style as the temporary construction
inside `Rehashing`). -/
def mkExpectedThreadsChecked (D : Nat) (expected_size : Nat)
    (expected_threads_count : Nat) (hasher : K → Nat) :
    Option (ConcurrentHashMap K V) :=
  let t := min D expected_threads_count
  if t = 0 then none else
  let s := max kDefaultSize ((expected_size + t - 1) / t)
  some { count_threads_ := t
         storage_size_ := s
         size_ := 0
         hash_function_ := hasher
         storage_ := List.replicate t (List.replicate s []) }

/-- Member `GetHash(key, mod) = hash_function_(key) % mod`.  A zero modulus is the
(unguarded) division-by-zero fault of the source, surfaced as `none`. -/
def GetHash (m : ConcurrentHashMap K V) (key : K) (mod : Nat) : Option Nat :=
  if mod = 0 then none else some (m.hash_function_ key % mod)

/-- Member `Rehashing()`: grab every shard lock, build a temporary map
`ConcurrentHashMap(storage_size_ * count_threads_ * 3, count_threads_, hash_function_)`,
re-address every entry into it, steal its storage, and set
`storage_size_ = (storage_size_ * count_threads_ * 3 + count_threads_ - 1) / count_threads_`.
The temporary map's shard count is `min D count_threads_` and its bucket
count is `max kDefaultSize (ceil of the tripled budget)` exactly as the
three-argument constructor computes them; a zero temporary shard count is the
constructor's division by zero, surfaced as `none`. -/
def Rehashing (D : Nat) (m : ConcurrentHashMap K V) :
    Option (ConcurrentHashMap K V) :=
  let tempT := min D m.count_threads_
  if tempT = 0 then none else
  let tempS := max kDefaultSize
      ((m.storage_size_ * m.count_threads_ * 3 + tempT - 1) / tempT)
  let redistributed := (allEntries m.storage_).foldl
      (fun st kv => pushBucket st (m.hash_function_ kv.1 % m.count_threads_)
        (m.hash_function_ kv.1 % tempS) kv)
      (List.replicate tempT (List.replicate tempS []))
  some { m with
    storage_ := redistributed
    storage_size_ :=
      (m.storage_size_ * m.count_threads_ * 3 + m.count_threads_ - 1) /
        m.count_threads_ }

/-- Member `Insert(key, value)`: scan the addressed bucket under the shard lock; an
existing key means no mutation and result `false`; otherwise bump `size_`,
append the entry, and if the chain reached `kLimitCollisions` run `Rehashing`
after releasing the lock.  Result `true` for a fresh key. -/
def Insert (D : Nat) (m : ConcurrentHashMap K V) [DecidableEq K]
    (key : K) (value : V) : Option (ConcurrentHashMap K V × Bool) :=
  match m.GetHash key m.count_threads_ with
  | none => none
  | some extern_index =>
    match m.GetHash key m.storage_size_ with
    | none => none
    | some intern_index =>
      let b := getBucket m.storage_ extern_index intern_index
      if b.any (fun p => decide (p.1 = key)) then
        some (m, false)
      else
        let m' := { m with
          size_ := m.size_ + 1
          storage_ := pushBucket m.storage_ extern_index intern_index (key, value) }
        if (getBucket m'.storage_ extern_index intern_index).length < kLimitCollisions then
          some (m', true)
        else
          (Rehashing D m').map (fun m2 => (m2, true))

/-- The C++ loop `for (...) if (bucket[i].first == key) ...`: index of the
first entry of the bucket carrying `key`. -/
def findKeyIdx [DecidableEq K] (key : K) : List (K × V) → Option Nat
  | [] => none
  | p :: rest => if p.1 = key then some 0 else (findKeyIdx key rest).map Nat.succ

/-- Removal step `std::swap(b[j], b.back()); b.pop_back();` of `Erase`. -/
def swapRemove (b : List (K × V)) (j : Nat) : List (K × V) :=
  match b.getLast? with
  | none => b
  | some last => (b.set j last).dropLast

/-- Member `Erase(key)`: scan the addressed bucket; when the key is found, decrement
`size_` and remove the entry by swap-with-last-and-pop, returning `true`;
otherwise return `false`. -/
def Erase (m : ConcurrentHashMap K V) [DecidableEq K] (key : K) :
    Option (ConcurrentHashMap K V × Bool) :=
  match m.GetHash key m.count_threads_ with
  | none => none
  | some extern_index =>
    match m.GetHash key m.storage_size_ with
    | none => none
    | some intern_index =>
      let b := getBucket m.storage_ extern_index intern_index
      match findKeyIdx key b with
      | some j =>
        some ({ m with
          size_ := m.size_ - 1
          storage_ := setBucket m.storage_ extern_index intern_index (swapRemove b j) },
          true)
      | none => some (m, false)

/-- Member `Clear()`: reset `size_`, drop the storage, reallocate
`count_threads_ × kDefaultSize` empty buckets. -/
def Clear (m : ConcurrentHashMap K V) : ConcurrentHashMap K V :=
  { m with
    size_ := 0
    storage_size_ := kDefaultSize
    storage_ := List.replicate m.count_threads_ (List.replicate kDefaultSize []) }

/-- Member `Find(key)`: scan the addressed bucket; `(true, value)` on a hit,
`(false, V())` on a miss (`default` models the default-constructed value). -/
def Find (m : ConcurrentHashMap K V) [DecidableEq K] [Inhabited V] (key : K) :
    Option (Bool × V) :=
  match m.GetHash key m.count_threads_ with
  | none => none
  | some extern_index =>
    match m.GetHash key m.storage_size_ with
    | none => none
    | some intern_index =>
      match (getBucket m.storage_ extern_index intern_index).find?
          (fun p => decide (p.1 = key)) with
      | some p => some (true, p.2)
      | none => some (false, default)

/-- Member `At(key)`: like `Find`, but a miss throws
`std::out_of_range("this key has not value")`, modelled as `Except.error`. -/
def At (m : ConcurrentHashMap K V) [DecidableEq K] (key : K) :
    Option (Except String V) :=
  match m.GetHash key m.count_threads_ with
  | none => none
  | some extern_index =>
    match m.GetHash key m.storage_size_ with
    | none => none
    | some intern_index =>
      match (getBucket m.storage_ extern_index intern_index).find?
          (fun p => decide (p.1 = key)) with
      | some p => some (Except.ok p.2)
      | none => some (Except.error "this key has not value")

/-- Member `Size()` returns the `size_` counter. -/
def Size (m : ConcurrentHashMap K V) : Nat := m.size_

end ConcurrentHashMap

open ConcurrentHashMap

/-- Model-level presence of a key anywhere in the structure. -/
def containsKey [DecidableEq K] (m : ConcurrentHashMap K V) (k : K) : Bool :=
  (allEntries m.storage_).any (fun p => decide (p.1 = k))

/-- Well-formedness of a map state, relative to the default concurrency level
`D`.  Every state reachable from the constructors through sequential
operations satisfies it.  All conjuncts are decidable, so concrete instances
can be checked by evaluation. -/
def WF [DecidableEq K] (D : Nat) (m : ConcurrentHashMap K V) : Prop :=
  0 < m.count_threads_ ∧
  m.count_threads_ ≤ D ∧
  kDefaultSize ≤ m.storage_size_ ∧
  m.storage_.length = m.count_threads_ ∧
  (∀ sh ∈ m.storage_, sh.length = m.storage_size_) ∧
  (∀ e, e < m.count_threads_ → ∀ i, i < m.storage_size_ →
    ∀ kv ∈ getBucket m.storage_ e i,
      m.hash_function_ kv.1 % m.count_threads_ = e ∧
      m.hash_function_ kv.1 % m.storage_size_ = i) ∧
  (∀ kv ∈ allEntries m.storage_,
    (allEntries m.storage_).countP (fun p => decide (p.1 = kv.1)) ≤ 1) ∧
  m.size_ = (allEntries m.storage_).length

instance [DecidableEq K] (D : Nat) (m : ConcurrentHashMap K V) :
    Decidable (WF D m) := by
  unfold WF; infer_instance

/-- The sequential operations of the external interface (`find`/`at` are
state-preserving but still run their addressing, hence can fault). -/
inductive Op (K V : Type) where
  | insert : K → V → Op K V
  | erase : K → Op K V
  | find : K → Op K V
  | atOp : K → Op K V
  | clear : Op K V
  | rehash : Op K V

/-- One sequential step. -/
def runOp [DecidableEq K] [Inhabited V] (D : Nat) (m : ConcurrentHashMap K V) :
    Op K V → Option (ConcurrentHashMap K V)
  | .insert k v => (Insert D m k v).map Prod.fst
  | .erase k => (Erase m k).map Prod.fst
  | .find k => (Find m k).map (fun _ => m)
  | .atOp k => (At m k).map (fun _ => m)
  | .clear => some (Clear m)
  | .rehash => Rehashing D m

/-- Run a finite sequence of operations. -/
def run [DecidableEq K] [Inhabited V] (D : Nat) (m : ConcurrentHashMap K V) :
    List (Op K V) → Option (ConcurrentHashMap K V)
  | [] => some m
  | op :: ops =>
    match runOp D m op with
    | none => none
    | some m' => run D m' ops

/-! ## Auxiliary list lemmas -/

section ListAux

variable {α β : Type}

theorem getD_mem {l : List α} {i : Nat} {d : α} (h : i < l.length) :
    l.getD i d ∈ l := by
  rw [List.getD_eq_getElem l d h]
  exact List.getElem_mem h

theorem getD_set_self {l : List α} {i : Nat} {x d : α} (h : i < l.length) :
    (l.set i x).getD i d = x := by
  rw [List.getD_eq_getElem _ d (by simpa using h), List.getElem_set]
  simp

theorem getD_set_ne {l : List α} {i j : Nat} {x d : α} (h : i ≠ j) :
    (l.set i x).getD j d = l.getD j d := by
  by_cases hj : j < l.length
  · rw [List.getD_eq_getElem _ d (by simpa using hj), List.getD_eq_getElem _ d hj,
      List.getElem_set, if_neg h]
  · rw [List.getD_eq_default _ d (by simpa using Nat.le_of_not_lt hj),
      List.getD_eq_default _ d (Nat.le_of_not_lt hj)]

theorem mem_of_mem_set {l : List α} {i : Nat} {a x : α} (h : x ∈ l.set i a) :
    x ∈ l ∨ x = a := by
  rcases List.mem_iff_getElem.1 h with ⟨n, hn, hx⟩
  rw [List.getElem_set] at hx
  by_cases hin : i = n
  · rw [if_pos hin] at hx; exact Or.inr hx.symm
  · rw [if_neg hin] at hx
    exact Or.inl (hx ▸ List.getElem_mem (by simpa using hn))

theorem getD_replicate {n i : Nat} {a d : α} (h : i < n) :
    (List.replicate n a).getD i d = a := by
  rw [List.getD_eq_getElem _ d (by simpa using h), List.getElem_replicate]

theorem countP_set {l : List α} {i : Nat} (p : α → Bool) (x d : α)
    (h : i < l.length) :
    (l.set i x).countP p + (if p (l.getD i d) then 1 else 0) =
      l.countP p + (if p x then 1 else 0) := by
  induction l generalizing i with
  | nil => simp at h
  | cons y ys ih =>
    cases i with
    | zero =>
      simp only [List.set_cons_zero, List.countP_cons, List.getD_cons_zero]
      omega
    | succ i =>
      have h' : i < ys.length := by simpa using h
      have := ih h'
      simp only [List.set_cons_succ, List.countP_cons, List.getD_cons_succ]
      omega

theorem sum_nat_set {l : List Nat} {i : Nat} (x : Nat) (h : i < l.length) :
    (l.set i x).sum + l.getD i 0 = l.sum + x := by
  induction l generalizing i with
  | nil => simp at h
  | cons y ys ih =>
    cases i with
    | zero =>
      simp only [List.set_cons_zero, List.sum_cons, List.getD_cons_zero]
      omega
    | succ i =>
      have h' : i < ys.length := by simpa using h
      have := ih h'
      simp only [List.set_cons_succ, List.sum_cons, List.getD_cons_succ]
      omega

theorem countP_eq_zero_of_any_eq_false {l : List α} {p : α → Bool}
    (h : l.any p = false) : l.countP p = 0 := by
  rw [List.countP_eq_zero]
  intro a ha hpa
  have : l.any p = true := List.any_eq_true.2 ⟨a, ha, hpa⟩
  rw [h] at this
  exact Bool.false_ne_true this

theorem any_eq_false_of_countP_eq_zero {l : List α} {p : α → Bool}
    (h : l.countP p = 0) : l.any p = false := by
  rw [Bool.eq_false_iff]
  intro hany
  rcases List.any_eq_true.1 hany with ⟨a, ha, hpa⟩
  have := (List.countP_eq_zero.1 h) a ha
  exact this hpa

theorem find?_eq_of_countP_le_one {l : List α} {p : α → Bool} {x : α}
    (hx : x ∈ l) (hpx : p x = true) (hcount : l.countP p ≤ 1) :
    l.find? p = some x := by
  induction l with
  | nil => simp at hx
  | cons y ys ih =>
    by_cases hpy : p y = true
    · rw [List.find?_cons_of_pos _ hpy]
      rcases List.mem_cons.1 hx with rfl | hxs
      · rfl
      · exfalso
        have h1 : 0 < ys.countP p := List.countP_pos_iff.2 ⟨x, hxs, hpx⟩
        rw [List.countP_cons, if_pos hpy] at hcount
        omega
    · rw [List.find?_cons_of_neg _ hpy]
      have hxs : x ∈ ys := by
        rcases List.mem_cons.1 hx with rfl | hxs
        · exact absurd hpx hpy
        · exact hxs
      have : ys.countP p ≤ 1 := by
        rw [List.countP_cons, if_neg hpy] at hcount
        omega
      exact ih hxs this

theorem countP_true_eq_length (l : List α) :
    l.countP (fun _ => true) = l.length := by
  induction l with
  | nil => rfl
  | cons x xs ih =>
    rw [List.countP_cons]
    simp [ih]

theorem flatten_replicate_nil {n : Nat} :
    (List.replicate n ([] : List α)).flatten = [] := by
  induction n with
  | zero => rfl
  | succ n ih => simp [List.replicate_succ, ih]

end ListAux

/-! ## Storage lemmas -/

section StorageAux

theorem length_setBucket (st : Storage K V) (e i : Nat) (b : List (K × V)) :
    (setBucket st e i b).length = st.length := by
  simp [setBucket]

theorem getBucket_setBucket_self {st : Storage K V} {e i : Nat}
    (b : List (K × V)) (he : e < st.length) (hi : i < (st.getD e []).length) :
    getBucket (setBucket st e i b) e i = b := by
  unfold getBucket setBucket
  rw [getD_set_self he, getD_set_self hi]

theorem getBucket_setBucket_ne {st : Storage K V} {e i e' i' : Nat}
    (b : List (K × V)) (h : e' ≠ e ∨ i' ≠ i) :
    getBucket (setBucket st e i b) e' i' = getBucket st e' i' := by
  unfold getBucket setBucket
  by_cases hee : e = e'
  · subst hee
    have hii : i ≠ i' := by
      rcases h with h | h
      · exact absurd rfl h
      · exact fun hc => h hc.symm
    by_cases hel : e < st.length
    · rw [getD_set_self hel, getD_set_ne hii]
    · have hle : st.length ≤ e := Nat.le_of_not_lt hel
      have h1 : (List.set st e ((st.getD e []).set i b)).getD e [] = [] :=
        List.getD_eq_default _ _ (by simpa using hle)
      have h2 : st.getD e [] = [] := List.getD_eq_default _ _ hle
      rw [h1, h2]
  · rw [getD_set_ne hee]

theorem shard_length_setBucket {st : Storage K V} {e i : Nat}
    {b : List (K × V)} {S : Nat} (he : e < st.length)
    (hsh : ∀ sh ∈ st, sh.length = S) :
    ∀ sh ∈ setBucket st e i b, sh.length = S := by
  intro sh hmem
  rcases mem_of_mem_set hmem with hmem' | rfl
  · exact hsh sh hmem'
  · rw [List.length_set]
    exact hsh _ (getD_mem he)

end StorageAux

/-! ## Lemmas about `allEntries` -/

section AllEntriesAux

theorem getD_map_of_default {γ δ : Type} (f : γ → δ) (dγ : γ) (dδ : δ)
    (hf : f dγ = dδ) {l : List γ} {e : Nat} :
    (l.map f).getD e dδ = f (l.getD e dγ) := by
  by_cases he : e < l.length
  · rw [List.getD_eq_getElem _ _ (by simpa using he), List.getElem_map,
      List.getD_eq_getElem _ _ he]
  · rw [List.getD_eq_default _ _ (by simpa using Nat.le_of_not_lt he),
      List.getD_eq_default _ _ (Nat.le_of_not_lt he), hf]

theorem countP_allEntries (p : K × V → Bool) (st : Storage K V) :
    (allEntries st).countP p =
      (st.map (fun sh => (sh.map (List.countP p)).sum)).sum := by
  unfold allEntries
  rw [List.countP_flatten, List.map_map]
  have : (List.countP p ∘ List.flatten) =
      fun sh : List (List (K × V)) => (sh.map (List.countP p)).sum := by
    funext sh
    exact List.countP_flatten p sh
  rw [this]

theorem countP_allEntries_setBucket (p : K × V → Bool) {st : Storage K V}
    {e i : Nat} (b : List (K × V)) (he : e < st.length)
    (hi : i < (st.getD e []).length) :
    (allEntries (setBucket st e i b)).countP p + (getBucket st e i).countP p =
      (allEntries st).countP p + b.countP p := by
  rw [countP_allEntries, countP_allEntries]
  unfold setBucket getBucket
  simp only [List.map_set]
  have hlen : e < (st.map
      (fun sh : List (List (K × V)) => (sh.map (List.countP p)).sum)).length := by
    simpa using he
  have hsum := sum_nat_set
    (l := st.map (fun sh : List (List (K × V)) => (sh.map (List.countP p)).sum))
    ((((st.getD e []).map (List.countP p)).set i (List.countP p b)).sum) hlen
  have hgd : (st.map
      (fun sh : List (List (K × V)) => (sh.map (List.countP p)).sum)).getD e 0 =
      ((st.getD e []).map (List.countP p)).sum :=
    getD_map_of_default _ [] 0 rfl
  rw [hgd] at hsum
  have hlen2 : i < ((st.getD e []).map (List.countP p)).length := by simpa using hi
  have hsum2 := sum_nat_set (l := (st.getD e []).map (List.countP p))
    (List.countP p b) hlen2
  have hgd2 : ((st.getD e []).map (List.countP p)).getD i 0 =
      ((st.getD e []).getD i []).countP p :=
    getD_map_of_default _ [] 0 rfl
  rw [hgd2] at hsum2
  omega

theorem countP_allEntries_pushBucket (p : K × V → Bool) {st : Storage K V}
    {e i : Nat} (kv : K × V) (he : e < st.length)
    (hi : i < (st.getD e []).length) :
    (allEntries (pushBucket st e i kv)).countP p =
      (allEntries st).countP p + (if p kv then 1 else 0) := by
  have h := countP_allEntries_setBucket p (getBucket st e i ++ [kv]) he hi
  rw [List.countP_append] at h
  have h1 : List.countP p [kv] = if p kv then 1 else 0 := by
    simp [List.countP_cons]
  rw [pushBucket]
  omega

theorem mem_allEntries {st : Storage K V} {x : K × V} :
    x ∈ allEntries st ↔
      ∃ e i, e < st.length ∧ i < (st.getD e []).length ∧
        x ∈ getBucket st e i := by
  unfold allEntries getBucket
  constructor
  · intro hx
    rcases List.mem_flatten.1 hx with ⟨l, hl, hxl⟩
    rcases List.mem_map.1 hl with ⟨sh, hsh, rfl⟩
    rcases List.mem_flatten.1 hxl with ⟨b, hb, hxb⟩
    rcases List.mem_iff_getElem.1 hsh with ⟨e, he, heq⟩
    subst heq
    rcases List.mem_iff_getElem.1 hb with ⟨i, hi, hieq⟩
    subst hieq
    refine ⟨e, i, he, ?_, ?_⟩
    · rw [List.getD_eq_getElem _ _ he]; exact hi
    · rw [List.getD_eq_getElem _ _ he, List.getD_eq_getElem _ _ hi]
      exact hxb
  · rintro ⟨e, i, he, hi, hx⟩
    apply List.mem_flatten.2
    refine ⟨(st.getD e []).flatten, List.mem_map_of_mem _ (getD_mem he), ?_⟩
    exact List.mem_flatten.2 ⟨_, getD_mem hi, hx⟩

theorem getBucket_sublist {st : Storage K V} {e i : Nat}
    (he : e < st.length) (hi : i < (st.getD e []).length) :
    (getBucket st e i).Sublist (allEntries st) := by
  have h2 : (getBucket st e i).Sublist ((st.getD e []).flatten) :=
    List.sublist_flatten_of_mem (getD_mem hi)
  have h3 : (st.getD e []).flatten ∈ st.map List.flatten :=
    List.mem_map_of_mem _ (getD_mem he)
  exact h2.trans (List.sublist_flatten_of_mem h3)

theorem allEntries_replicate {a b : Nat} :
    allEntries (List.replicate a (List.replicate b ([] : List (K × V)))) = [] := by
  unfold allEntries
  rw [List.map_replicate, flatten_replicate_nil (α := K × V) (n := b)]
  exact flatten_replicate_nil

theorem getBucket_replicate {a b e i : Nat} (he : e < a) (hi : i < b) :
    getBucket (List.replicate a (List.replicate b ([] : List (K × V)))) e i = [] := by
  unfold getBucket
  rw [getD_replicate he, getD_replicate hi]

theorem shard_getD_length_setBucket {st : Storage K V} {e i : Nat}
    {b : List (K × V)} (he : e < st.length) (e' : Nat) :
    ((setBucket st e i b).getD e' []).length = (st.getD e' []).length := by
  by_cases hee : e = e'
  · subst hee
    rw [setBucket, getD_set_self he, List.length_set]
  · rw [setBucket, getD_set_ne hee]

theorem mem_allEntries_pushBucket {st : Storage K V} {e i : Nat}
    (kv x : K × V) (he : e < st.length) (hi : i < (st.getD e []).length) :
    x ∈ allEntries (pushBucket st e i kv) ↔ x ∈ allEntries st ∨ x = kv := by
  constructor
  · intro hx
    rcases mem_allEntries.1 hx with ⟨e', i', he', hi', hx'⟩
    rw [pushBucket, length_setBucket] at he'
    rw [pushBucket, shard_getD_length_setBucket he] at hi'
    by_cases hsame : e' = e ∧ i' = i
    · obtain ⟨rfl, rfl⟩ := hsame
      rw [pushBucket, getBucket_setBucket_self _ he hi] at hx'
      rcases List.mem_append.1 hx' with h | h
      · exact Or.inl ((getBucket_sublist he hi).subset h)
      · exact Or.inr (by simpa using h)
    · have hne : e' ≠ e ∨ i' ≠ i := by tauto
      rw [pushBucket, getBucket_setBucket_ne _ hne] at hx'
      exact Or.inl (mem_allEntries.2 ⟨e', i', he', hi', hx'⟩)
  · intro hx
    rcases hx with hx | rfl
    · rcases mem_allEntries.1 hx with ⟨e', i', he', hi', hx'⟩
      refine mem_allEntries.2 ⟨e', i', ?_, ?_, ?_⟩
      · rwa [pushBucket, length_setBucket]
      · rwa [pushBucket, shard_getD_length_setBucket he]
      · by_cases hsame : e' = e ∧ i' = i
        · obtain ⟨rfl, rfl⟩ := hsame
          rw [pushBucket, getBucket_setBucket_self _ he hi]
          exact List.mem_append.2 (Or.inl hx')
        · have hne : e' ≠ e ∨ i' ≠ i := by tauto
          rwa [pushBucket, getBucket_setBucket_ne _ hne]
    · refine mem_allEntries.2 ⟨e, i, ?_, ?_, ?_⟩
      · rwa [pushBucket, length_setBucket]
      · rwa [pushBucket, shard_getD_length_setBucket he]
      · rw [pushBucket, getBucket_setBucket_self _ he hi]
        exact List.mem_append.2 (Or.inr (by simp))

theorem mem_allEntries_setBucket_subset {st : Storage K V} {e i : Nat}
    {b : List (K × V)} (he : e < st.length) (hi : i < (st.getD e []).length)
    (hsub : ∀ y ∈ b, y ∈ getBucket st e i) :
    ∀ x ∈ allEntries (setBucket st e i b), x ∈ allEntries st := by
  intro x hx
  rcases mem_allEntries.1 hx with ⟨e', i', he', hi', hx'⟩
  rw [length_setBucket] at he'
  rw [shard_getD_length_setBucket he] at hi'
  by_cases hsame : e' = e ∧ i' = i
  · obtain ⟨rfl, rfl⟩ := hsame
    rw [getBucket_setBucket_self _ he hi] at hx'
    exact mem_allEntries.2 ⟨e', i', he', hi', hsub x hx'⟩
  · have hne : e' ≠ e ∨ i' ≠ i := by tauto
    rw [getBucket_setBucket_ne _ hne] at hx'
    exact mem_allEntries.2 ⟨e', i', he', hi', hx'⟩

end AllEntriesAux

/-! ## Lemmas about the redistribution fold of `Rehashing` -/

section ScatterAux

theorem foldl_push_length (f g : K × V → Nat) (L : List (K × V))
    (st : Storage K V) :
    (L.foldl (fun st kv => pushBucket st (f kv) (g kv) kv) st).length =
      st.length := by
  induction L generalizing st with
  | nil => rfl
  | cons kv L ih =>
    rw [List.foldl_cons, ih, pushBucket, length_setBucket]

theorem foldl_push_shards (f g : K × V → Nat) {S' : Nat} (L : List (K × V))
    (st : Storage K V) (hb : ∀ kv ∈ L, f kv < st.length)
    (hsh : ∀ sh ∈ st, sh.length = S') :
    ∀ sh ∈ L.foldl (fun st kv => pushBucket st (f kv) (g kv) kv) st,
      sh.length = S' := by
  induction L generalizing st with
  | nil => exact hsh
  | cons kv L ih =>
    rw [List.foldl_cons]
    have hfe : f kv < st.length := hb kv (List.mem_cons_self kv L)
    apply ih
    · intro kv' hkv'
      rw [pushBucket, length_setBucket]
      exact hb kv' (List.mem_cons_of_mem _ hkv')
    · exact shard_length_setBucket hfe hsh

theorem foldl_push_getBucket (f g : K × V → Nat) {S' : Nat} (L : List (K × V))
    (st : Storage K V) {e i : Nat} (hsh : ∀ sh ∈ st, sh.length = S')
    (hb : ∀ kv ∈ L, f kv < st.length ∧ g kv < S') :
    getBucket (L.foldl (fun st kv => pushBucket st (f kv) (g kv) kv) st) e i =
      getBucket st e i ++
        L.filter (fun kv => decide (f kv = e) && decide (g kv = i)) := by
  induction L generalizing st with
  | nil => simp
  | cons kv L ih =>
    rw [List.foldl_cons]
    obtain ⟨hfe, hgi⟩ := hb kv (List.mem_cons_self kv L)
    have hshard : (st.getD (f kv) []).length = S' := hsh _ (getD_mem hfe)
    have hgS : g kv < (st.getD (f kv) []).length := by rw [hshard]; exact hgi
    have hrec := ih (pushBucket st (f kv) (g kv) kv)
      (shard_length_setBucket hfe hsh)
      (fun kv' hkv' => by
        rw [pushBucket, length_setBucket]
        exact hb kv' (List.mem_cons_of_mem _ hkv'))
    rw [hrec, List.filter_cons]
    by_cases hsame : f kv = e ∧ g kv = i
    · obtain ⟨rfl, rfl⟩ := hsame
      rw [pushBucket, getBucket_setBucket_self _ hfe hgS]
      simp [List.append_assoc]
    · have hne : e ≠ f kv ∨ i ≠ g kv := by tauto
      rw [pushBucket, getBucket_setBucket_ne _ hne]
      have hcond : (decide (f kv = e) && decide (g kv = i)) = false := by
        rcases hne with h | h
        · have hd : decide (f kv = e) = false :=
            decide_eq_false (fun hc => h hc.symm)
          rw [hd, Bool.false_and]
        · have hd : decide (g kv = i) = false :=
            decide_eq_false (fun hc => h hc.symm)
          rw [hd, Bool.and_false]
      rw [hcond]
      simp

theorem foldl_push_countP (f g : K × V → Nat) {S' : Nat} (p : K × V → Bool)
    (L : List (K × V)) (st : Storage K V) (hsh : ∀ sh ∈ st, sh.length = S')
    (hb : ∀ kv ∈ L, f kv < st.length ∧ g kv < S') :
    (allEntries (L.foldl (fun st kv => pushBucket st (f kv) (g kv) kv)
        st)).countP p =
      (allEntries st).countP p + L.countP p := by
  induction L generalizing st with
  | nil => simp
  | cons kv L ih =>
    rw [List.foldl_cons]
    obtain ⟨hfe, hgi⟩ := hb kv (List.mem_cons_self kv L)
    have hshard : (st.getD (f kv) []).length = S' := hsh _ (getD_mem hfe)
    have hgS : g kv < (st.getD (f kv) []).length := by rw [hshard]; exact hgi
    have hrec := ih (pushBucket st (f kv) (g kv) kv)
      (shard_length_setBucket hfe hsh)
      (fun kv' hkv' => by
        rw [pushBucket, length_setBucket]
        exact hb kv' (List.mem_cons_of_mem _ hkv'))
    rw [hrec, countP_allEntries_pushBucket p kv hfe hgS, List.countP_cons]
    omega

end ScatterAux

/-! ## Lemmas about `swapRemove` and `findKeyIdx` -/

section EraseAux

theorem countP_swapRemove (p : K × V → Bool) {b : List (K × V)} {j : Nat}
    (hj : j < b.length) (d : K × V) :
    (swapRemove b j).countP p + (if p (b.getD j d) then 1 else 0) =
      b.countP p := by
  rcases List.eq_nil_or_concat b with rfl | ⟨ys, y, rfl⟩
  · simp at hj
  · rw [List.concat_eq_append] at hj ⊢
    simp only [swapRemove, List.getLast?_concat]
    rw [List.set_append]
    by_cases hys : j < ys.length
    · rw [if_pos hys, List.dropLast_concat]
      have hgd : (ys ++ [y]).getD j d = ys.getD j d := List.getD_append _ _ _ _ hys
      have hset := countP_set p y d hys
      rw [hgd, List.countP_append]
      simp only [List.countP_cons, List.countP_nil] at *
      omega
    · have hjy : j = ys.length := by
        rw [List.length_append] at hj
        simp at hj
        omega
      rw [if_neg hys]
      subst hjy
      rw [Nat.sub_self]
      simp only [List.set_cons_zero, List.dropLast_concat]
      have hgd : (ys ++ [y]).getD ys.length d = y := by
        rw [List.getD_eq_getElem _ d (by simp), List.getElem_concat_length]
        rfl
      rw [hgd, List.countP_append]
      simp only [List.countP_cons, List.countP_nil]
      omega

theorem mem_swapRemove {b : List (K × V)} {j : Nat} :
    ∀ x ∈ swapRemove b j, x ∈ b := by
  rcases List.eq_nil_or_concat b with rfl | ⟨ys, y, rfl⟩
  · intro x hx; exact hx
  · rw [List.concat_eq_append]
    simp only [swapRemove, List.getLast?_concat]
    intro x hx
    have hx' : x ∈ (ys ++ [y]).set j y := List.dropLast_sublist _ |>.subset hx
    rcases mem_of_mem_set hx' with h | rfl
    · exact h
    · simp

theorem findKeyIdx_some [DecidableEq K] {key : K} {b : List (K × V)} {j : Nat}
    (h : findKeyIdx key b = some j) (d : K × V) :
    j < b.length ∧ (b.getD j d).1 = key := by
  induction b generalizing j with
  | nil => simp [findKeyIdx] at h
  | cons x xs ih =>
    rw [findKeyIdx] at h
    by_cases hx : x.1 = key
    · rw [if_pos hx] at h
      have hj : j = 0 := by
        injection h with h
        omega
      subst hj
      simpa using hx
    · rw [if_neg hx] at h
      rcases Option.map_eq_some'.1 h with ⟨j', hj', rfl⟩
      obtain ⟨hlt, hkey⟩ := ih hj'
      refine ⟨by simpa using Nat.succ_lt_succ hlt, ?_⟩
      rw [List.getD_cons_succ]
      exact hkey

theorem findKeyIdx_none [DecidableEq K] {key : K} {b : List (K × V)} :
    findKeyIdx key b = none ↔ ∀ x ∈ b, x.1 ≠ key := by
  induction b with
  | nil => simp [findKeyIdx]
  | cons x xs ih =>
    rw [findKeyIdx]
    by_cases hx : x.1 = key
    · simp [if_pos hx, hx]
    · rw [if_neg hx]
      simp only [Option.map_eq_none', List.mem_cons]
      constructor
      · intro h y hy
        rcases hy with rfl | hy
        · exact hx
        · exact ih.1 h y hy
      · intro h
        exact ih.2 (fun y hy => h y (Or.inr hy))

end EraseAux

/-! ## Consequences of well-formedness -/

section WFAux

variable [DecidableEq K] {D : Nat} {m : ConcurrentHashMap K V}

theorem WF_tpos (h : WF D m) : 0 < m.count_threads_ := h.1

theorem WF_tle (h : WF D m) : m.count_threads_ ≤ D := h.2.1

theorem WF_sge (h : WF D m) : kDefaultSize ≤ m.storage_size_ := h.2.2.1

theorem WF_spos (h : WF D m) : 0 < m.storage_size_ :=
  Nat.lt_of_lt_of_le (by norm_num [kDefaultSize]) (WF_sge h)

theorem WF_len (h : WF D m) : m.storage_.length = m.count_threads_ :=
  h.2.2.2.1

theorem WF_shlen (h : WF D m) :
    ∀ sh ∈ m.storage_, sh.length = m.storage_size_ := h.2.2.2.2.1

theorem WF_placed (h : WF D m) :
    ∀ e, e < m.count_threads_ → ∀ i, i < m.storage_size_ →
      ∀ kv ∈ getBucket m.storage_ e i,
        m.hash_function_ kv.1 % m.count_threads_ = e ∧
        m.hash_function_ kv.1 % m.storage_size_ = i := h.2.2.2.2.2.1

theorem WF_uniq (h : WF D m) :
    ∀ kv ∈ allEntries m.storage_,
      (allEntries m.storage_).countP (fun p => decide (p.1 = kv.1)) ≤ 1 :=
  h.2.2.2.2.2.2.1

theorem WF_size (h : WF D m) : m.size_ = (allEntries m.storage_).length :=
  h.2.2.2.2.2.2.2

theorem WF_shard_length (h : WF D m) {e : Nat} (he : e < m.count_threads_) :
    (m.storage_.getD e []).length = m.storage_size_ :=
  WF_shlen h _ (getD_mem (by rw [WF_len h]; exact he))

theorem WF_uniq_all (h : WF D m) (k : K) :
    (allEntries m.storage_).countP (fun p => decide (p.1 = k)) ≤ 1 := by
  by_cases hz : (allEntries m.storage_).countP (fun p => decide (p.1 = k)) = 0
  · omega
  · have hpos : 0 < (allEntries m.storage_).countP (fun p => decide (p.1 = k)) :=
      Nat.pos_of_ne_zero hz
    rcases List.countP_pos_iff.1 hpos with ⟨x, hx, hpx⟩
    have hxk : x.1 = k := of_decide_eq_true hpx
    have := WF_uniq h x hx
    rwa [hxk] at this

/-- Every entry of a well-formed map sits in the bucket its key hashes to. -/
theorem mem_canonicalBucket (h : WF D m) {x : K × V}
    (hx : x ∈ allEntries m.storage_) :
    x ∈ getBucket m.storage_ (m.hash_function_ x.1 % m.count_threads_)
      (m.hash_function_ x.1 % m.storage_size_) := by
  rcases mem_allEntries.1 hx with ⟨e, i, he, hi, hxb⟩
  have heT : e < m.count_threads_ := by rw [WF_len h] at he; exact he
  have hiS : i < m.storage_size_ := by
    rw [WF_shard_length h heT] at hi; exact hi
  obtain ⟨h1, h2⟩ := WF_placed h e heT i hiS x hxb
  rw [h1, h2]
  exact hxb

theorem mem_allEntries_of_mem_bucket (h : WF D m) {e i : Nat} {x : K × V}
    (he : e < m.count_threads_) (hi : i < m.storage_size_)
    (hx : x ∈ getBucket m.storage_ e i) : x ∈ allEntries m.storage_ := by
  have he' : e < m.storage_.length := by rw [WF_len h]; exact he
  have hi' : i < (m.storage_.getD e []).length := by
    rw [WF_shard_length h he]; exact hi
  exact (getBucket_sublist he' hi').subset hx

theorem containsKey_iff_exists {k : K} :
    containsKey m k = true ↔ ∃ v, (k, v) ∈ allEntries m.storage_ := by
  unfold containsKey
  rw [List.any_eq_true]
  constructor
  · rintro ⟨x, hx, hpx⟩
    have hxk : x.1 = k := of_decide_eq_true hpx
    exact ⟨x.2, by rw [← hxk, Prod.mk.eta]; exact hx⟩
  · rintro ⟨v, hv⟩
    exact ⟨(k, v), hv, by simp⟩

theorem containsKey_false_iff {k : K} :
    containsKey m k = false ↔ ∀ x ∈ allEntries m.storage_, x.1 ≠ k := by
  unfold containsKey
  rw [List.any_eq_false]
  constructor
  · intro h x hx
    have := h x hx
    simpa using this
  · intro h x hx
    simpa using h x hx

/-- In a well-formed map the bucket-local scan of the canonical bucket sees a
key exactly when the key is anywhere in the structure. -/
theorem bucket_scan_iff_containsKey (h : WF D m) (k : K) :
    (getBucket m.storage_ (m.hash_function_ k % m.count_threads_)
        (m.hash_function_ k % m.storage_size_)).any
      (fun p => decide (p.1 = k)) = containsKey m k := by
  have heT : m.hash_function_ k % m.count_threads_ < m.count_threads_ :=
    Nat.mod_lt _ (WF_tpos h)
  have hiS : m.hash_function_ k % m.storage_size_ < m.storage_size_ :=
    Nat.mod_lt _ (WF_spos h)
  cases hck : containsKey m k with
  | true =>
    rcases containsKey_iff_exists.1 hck with ⟨v, hv⟩
    have := mem_canonicalBucket h hv
    exact List.any_eq_true.2 ⟨(k, v), this, by simp⟩
  | false =>
    rw [List.any_eq_false]
    intro x hx
    have hxmem : x ∈ allEntries m.storage_ :=
      mem_allEntries_of_mem_bucket h heT hiS hx
    have := containsKey_false_iff.1 hck x hxmem
    simpa using this

/-- Presence of an entry determines `find?` on its canonical bucket. -/
theorem canonical_find?_eq (h : WF D m) {k : K} {v : V}
    (hv : (k, v) ∈ allEntries m.storage_) :
    (getBucket m.storage_ (m.hash_function_ k % m.count_threads_)
        (m.hash_function_ k % m.storage_size_)).find?
      (fun p => decide (p.1 = k)) = some (k, v) := by
  have hmemb := mem_canonicalBucket h hv
  have heT : m.hash_function_ k % m.count_threads_ < m.count_threads_ :=
    Nat.mod_lt _ (WF_tpos h)
  have hiS : m.hash_function_ k % m.storage_size_ < m.storage_size_ :=
    Nat.mod_lt _ (WF_spos h)
  have he' : m.hash_function_ k % m.count_threads_ < m.storage_.length := by
    rw [WF_len h]; exact heT
  have hi' : m.hash_function_ k % m.storage_size_ <
      (m.storage_.getD (m.hash_function_ k % m.count_threads_) []).length := by
    rw [WF_shard_length h heT]; exact hiS
  have hsub := getBucket_sublist he' hi'
  have hcount : (getBucket m.storage_ (m.hash_function_ k % m.count_threads_)
      (m.hash_function_ k % m.storage_size_)).countP
      (fun p => decide (p.1 = k)) ≤ 1 :=
    Nat.le_trans (hsub.countP_le _) (WF_uniq_all h k)
  exact find?_eq_of_countP_le_one hmemb (by simp) hcount

end WFAux

/-! ## Specifications of `Find` and `At` -/

section FindSpec

variable [DecidableEq K] {D : Nat} {m : ConcurrentHashMap K V}

theorem Find_eq_of_mem [Inhabited V] (h : WF D m) {k : K} {v : V}
    (hv : (k, v) ∈ allEntries m.storage_) : Find m k = some (true, v) := by
  have hT0 : m.count_threads_ ≠ 0 := by have := WF_tpos h; omega
  have hS0 : m.storage_size_ ≠ 0 := by have := WF_spos h; omega
  simp only [Find, GetHash, if_neg hT0, if_neg hS0]
  rw [canonical_find?_eq h hv]

theorem Find_eq_of_not_contains [Inhabited V] (h : WF D m) {k : K}
    (hck : containsKey m k = false) : Find m k = some (false, default) := by
  have hT0 : m.count_threads_ ≠ 0 := by have := WF_tpos h; omega
  have hS0 : m.storage_size_ ≠ 0 := by have := WF_spos h; omega
  have heT : m.hash_function_ k % m.count_threads_ < m.count_threads_ :=
    Nat.mod_lt _ (WF_tpos h)
  have hiS : m.hash_function_ k % m.storage_size_ < m.storage_size_ :=
    Nat.mod_lt _ (WF_spos h)
  simp only [Find, GetHash, if_neg hT0, if_neg hS0]
  have hnone : (getBucket m.storage_ (m.hash_function_ k % m.count_threads_)
      (m.hash_function_ k % m.storage_size_)).find?
      (fun p => decide (p.1 = k)) = none := by
    rw [List.find?_eq_none]
    intro x hx
    have hxmem : x ∈ allEntries m.storage_ :=
      mem_allEntries_of_mem_bucket h heT hiS hx
    simpa using containsKey_false_iff.1 hck x hxmem
  rw [hnone]

theorem mem_of_Find_eq [Inhabited V] (h : WF D m) {k : K} {v : V}
    (hf : Find m k = some (true, v)) : (k, v) ∈ allEntries m.storage_ := by
  have hT0 : m.count_threads_ ≠ 0 := by have := WF_tpos h; omega
  have hS0 : m.storage_size_ ≠ 0 := by have := WF_spos h; omega
  have heT : m.hash_function_ k % m.count_threads_ < m.count_threads_ :=
    Nat.mod_lt _ (WF_tpos h)
  have hiS : m.hash_function_ k % m.storage_size_ < m.storage_size_ :=
    Nat.mod_lt _ (WF_spos h)
  simp only [Find, GetHash, if_neg hT0, if_neg hS0] at hf
  cases hfind : (getBucket m.storage_ (m.hash_function_ k % m.count_threads_)
      (m.hash_function_ k % m.storage_size_)).find?
      (fun p => decide (p.1 = k)) with
  | none =>
    rw [hfind] at hf
    simp at hf
  | some p =>
    rw [hfind] at hf
    have hv2 : p.2 = v := by
      have := Option.some.inj hf
      exact (Prod.mk.injEq _ _ _ _ ▸ this).2
    have hpmem := List.mem_of_find?_eq_some hfind
    have hfs := List.find?_some hfind
    have hpk : p.1 = k := of_decide_eq_true (by simpa using hfs)
    have : (k, v) = p := by
      rw [← hpk, ← hv2, Prod.mk.eta]
    rw [this]
    exact mem_allEntries_of_mem_bucket h heT hiS hpmem

theorem At_eq_of_mem (h : WF D m) {k : K} {v : V}
    (hv : (k, v) ∈ allEntries m.storage_) : At m k = some (Except.ok v) := by
  have hT0 : m.count_threads_ ≠ 0 := by have := WF_tpos h; omega
  have hS0 : m.storage_size_ ≠ 0 := by have := WF_spos h; omega
  simp only [At, GetHash, if_neg hT0, if_neg hS0]
  rw [canonical_find?_eq h hv]

theorem At_eq_of_not_contains (h : WF D m) {k : K}
    (hck : containsKey m k = false) :
    At m k = some (Except.error "this key has not value") := by
  have hT0 : m.count_threads_ ≠ 0 := by have := WF_tpos h; omega
  have hS0 : m.storage_size_ ≠ 0 := by have := WF_spos h; omega
  have heT : m.hash_function_ k % m.count_threads_ < m.count_threads_ :=
    Nat.mod_lt _ (WF_tpos h)
  have hiS : m.hash_function_ k % m.storage_size_ < m.storage_size_ :=
    Nat.mod_lt _ (WF_spos h)
  simp only [At, GetHash, if_neg hT0, if_neg hS0]
  have hnone : (getBucket m.storage_ (m.hash_function_ k % m.count_threads_)
      (m.hash_function_ k % m.storage_size_)).find?
      (fun p => decide (p.1 = k)) = none := by
    rw [List.find?_eq_none]
    intro x hx
    have hxmem : x ∈ allEntries m.storage_ :=
      mem_allEntries_of_mem_bucket h heT hiS hx
    simpa using containsKey_false_iff.1 hck x hxmem
  rw [hnone]

end FindSpec

/-! ## Specification of `Rehashing` -/

section RehashSpec

variable [DecidableEq K] {D : Nat}

theorem Rehashing_spec [Inhabited V] {m : ConcurrentHashMap K V} (h : WF D m) :
    ∃ m', Rehashing D m = some m' ∧
      m'.count_threads_ = m.count_threads_ ∧
      m'.hash_function_ = m.hash_function_ ∧
      m'.size_ = m.size_ ∧
      m'.storage_size_ = 3 * m.storage_size_ ∧
      (∀ p : K × V → Bool,
        (allEntries m'.storage_).countP p = (allEntries m.storage_).countP p) ∧
      (∀ x : K × V, x ∈ allEntries m'.storage_ ↔ x ∈ allEntries m.storage_) ∧
      WF D m' ∧
      (∀ k : K, Find m' k = Find m k) := by
  have hT := WF_tpos h
  have hTD := WF_tle h
  have hS29 := WF_sge h
  have hS0 := WF_spos h
  have hT0 : m.count_threads_ ≠ 0 := by omega
  have htempT : min D m.count_threads_ = m.count_threads_ := Nat.min_eq_right hTD
  have harith : (m.storage_size_ * m.count_threads_ * 3 + m.count_threads_ - 1) /
      m.count_threads_ = 3 * m.storage_size_ := by
    have h1 : m.storage_size_ * m.count_threads_ * 3 =
        m.count_threads_ * (3 * m.storage_size_) := by ring
    rw [h1]
    have h2 : m.count_threads_ * (3 * m.storage_size_) + m.count_threads_ - 1 =
        (m.count_threads_ - 1) + m.count_threads_ * (3 * m.storage_size_) := by
      omega
    rw [h2, Nat.add_mul_div_left _ _ hT, Nat.div_eq_of_lt (by omega)]
    omega
  have h3S29 : kDefaultSize ≤ 3 * m.storage_size_ := by
    unfold kDefaultSize at *
    omega
  have htempS : max kDefaultSize (3 * m.storage_size_) = 3 * m.storage_size_ :=
    Nat.max_eq_right h3S29
  have hRe : Rehashing D m = some { m with
      storage_ := (allEntries m.storage_).foldl
        (fun st kv => pushBucket st
          (m.hash_function_ kv.1 % m.count_threads_)
          (m.hash_function_ kv.1 % (3 * m.storage_size_)) kv)
        (List.replicate m.count_threads_
          (List.replicate (3 * m.storage_size_) []))
      storage_size_ := 3 * m.storage_size_ } := by
    simp only [Rehashing, htempT, htempS, harith]
    rw [if_neg hT0]
  -- facts about the redistribution fold
  have hstlen : (List.replicate m.count_threads_
      (List.replicate (3 * m.storage_size_) ([] : List (K × V)))).length =
      m.count_threads_ := by simp
  have hstsh : ∀ sh ∈ List.replicate m.count_threads_
      (List.replicate (3 * m.storage_size_) ([] : List (K × V))),
      sh.length = 3 * m.storage_size_ := by
    intro sh hsh
    rw [List.eq_of_mem_replicate hsh]
    simp
  have hbounds : ∀ kv ∈ allEntries m.storage_,
      m.hash_function_ kv.1 % m.count_threads_ <
        (List.replicate m.count_threads_
          (List.replicate (3 * m.storage_size_) ([] : List (K × V)))).length ∧
      m.hash_function_ kv.1 % (3 * m.storage_size_) < 3 * m.storage_size_ := by
    intro kv _
    constructor
    · rw [hstlen]; exact Nat.mod_lt _ hT
    · exact Nat.mod_lt _ (by omega)
  have hcount : ∀ p : K × V → Bool,
      (allEntries ((allEntries m.storage_).foldl
        (fun st kv => pushBucket st
          (m.hash_function_ kv.1 % m.count_threads_)
          (m.hash_function_ kv.1 % (3 * m.storage_size_)) kv)
        (List.replicate m.count_threads_
          (List.replicate (3 * m.storage_size_) [])))).countP p =
      (allEntries m.storage_).countP p := by
    intro p
    have hc := foldl_push_countP
      (fun kv : K × V => m.hash_function_ kv.1 % m.count_threads_)
      (fun kv : K × V => m.hash_function_ kv.1 % (3 * m.storage_size_))
      p (allEntries m.storage_)
      (List.replicate m.count_threads_
        (List.replicate (3 * m.storage_size_) [])) hstsh hbounds
    rw [allEntries_replicate] at hc
    simpa using hc
  have hslen : ((allEntries m.storage_).foldl
      (fun st kv => pushBucket st
        (m.hash_function_ kv.1 % m.count_threads_)
        (m.hash_function_ kv.1 % (3 * m.storage_size_)) kv)
      (List.replicate m.count_threads_
        (List.replicate (3 * m.storage_size_) ([] : List (K × V))))).length =
      m.count_threads_ := by
    rw [foldl_push_length, hstlen]
  have hsshards : ∀ sh ∈ (allEntries m.storage_).foldl
      (fun st kv => pushBucket st
        (m.hash_function_ kv.1 % m.count_threads_)
        (m.hash_function_ kv.1 % (3 * m.storage_size_)) kv)
      (List.replicate m.count_threads_
        (List.replicate (3 * m.storage_size_) ([] : List (K × V)))),
      sh.length = 3 * m.storage_size_ :=
    foldl_push_shards _ _ _ _ (fun kv hkv => (hbounds kv hkv).1) hstsh
  have hchar : ∀ e i : Nat, getBucket ((allEntries m.storage_).foldl
      (fun st kv => pushBucket st
        (m.hash_function_ kv.1 % m.count_threads_)
        (m.hash_function_ kv.1 % (3 * m.storage_size_)) kv)
      (List.replicate m.count_threads_
        (List.replicate (3 * m.storage_size_) ([] : List (K × V))))) e i =
      getBucket (List.replicate m.count_threads_
        (List.replicate (3 * m.storage_size_) ([] : List (K × V)))) e i ++
      (allEntries m.storage_).filter
        (fun kv => decide (m.hash_function_ kv.1 % m.count_threads_ = e) &&
          decide (m.hash_function_ kv.1 % (3 * m.storage_size_) = i)) := by
    intro e i
    exact foldl_push_getBucket _ _ _ _ hstsh hbounds
  have hmem : ∀ x : K × V, (x ∈ allEntries ((allEntries m.storage_).foldl
      (fun st kv => pushBucket st
        (m.hash_function_ kv.1 % m.count_threads_)
        (m.hash_function_ kv.1 % (3 * m.storage_size_)) kv)
      (List.replicate m.count_threads_
        (List.replicate (3 * m.storage_size_) [])))) ↔
      x ∈ allEntries m.storage_ := by
    intro x
    constructor
    · intro hx
      rcases mem_allEntries.1 hx with ⟨e, i, he, hi, hxb⟩
      rw [hslen] at he
      have hi3 : i < 3 * m.storage_size_ := by
        have hsh : ((allEntries m.storage_).foldl
            (fun st kv => pushBucket st
              (m.hash_function_ kv.1 % m.count_threads_)
              (m.hash_function_ kv.1 % (3 * m.storage_size_)) kv)
            (List.replicate m.count_threads_
              (List.replicate (3 * m.storage_size_) ([] : List (K × V))))).getD e [] ∈
            (allEntries m.storage_).foldl
            (fun st kv => pushBucket st
              (m.hash_function_ kv.1 % m.count_threads_)
              (m.hash_function_ kv.1 % (3 * m.storage_size_)) kv)
            (List.replicate m.count_threads_
              (List.replicate (3 * m.storage_size_) ([] : List (K × V)))) :=
          getD_mem (by rw [hslen]; exact he)
        rw [← hsshards _ hsh]
        exact hi
      rw [hchar e i] at hxb
      rcases List.mem_append.1 hxb with hxl | hxr
      · rw [getBucket_replicate he hi3] at hxl
        simp at hxl
      · exact (List.mem_filter.1 hxr).1
    · intro hx
      have hcond : (decide (m.hash_function_ x.1 % m.count_threads_ =
          m.hash_function_ x.1 % m.count_threads_) &&
          decide (m.hash_function_ x.1 % (3 * m.storage_size_) =
          m.hash_function_ x.1 % (3 * m.storage_size_))) = true := by simp
      have hxf : x ∈ (allEntries m.storage_).filter
          (fun kv => decide (m.hash_function_ kv.1 % m.count_threads_ =
            m.hash_function_ x.1 % m.count_threads_) &&
            decide (m.hash_function_ kv.1 % (3 * m.storage_size_) =
            m.hash_function_ x.1 % (3 * m.storage_size_))) :=
        List.mem_filter.2 ⟨hx, hcond⟩
      have hxb : x ∈ getBucket ((allEntries m.storage_).foldl
          (fun st kv => pushBucket st
            (m.hash_function_ kv.1 % m.count_threads_)
            (m.hash_function_ kv.1 % (3 * m.storage_size_)) kv)
          (List.replicate m.count_threads_
            (List.replicate (3 * m.storage_size_) [])))
          (m.hash_function_ x.1 % m.count_threads_)
          (m.hash_function_ x.1 % (3 * m.storage_size_)) := by
        rw [hchar]
        exact List.mem_append.2 (Or.inr hxf)
      refine mem_allEntries.2 ⟨m.hash_function_ x.1 % m.count_threads_,
        m.hash_function_ x.1 % (3 * m.storage_size_), ?_, ?_, hxb⟩
      · rw [hslen]; exact Nat.mod_lt _ hT
      · have hsh := getD_mem (l := (allEntries m.storage_).foldl
          (fun st kv => pushBucket st
            (m.hash_function_ kv.1 % m.count_threads_)
            (m.hash_function_ kv.1 % (3 * m.storage_size_)) kv)
          (List.replicate m.count_threads_
            (List.replicate (3 * m.storage_size_) ([] : List (K × V)))))
          (i := m.hash_function_ x.1 % m.count_threads_) (d := [])
          (by rw [hslen]; exact Nat.mod_lt _ hT)
        rw [hsshards _ hsh]
        exact Nat.mod_lt _ (by omega)
  have hwf : WF D { m with
      storage_ := (allEntries m.storage_).foldl
        (fun st kv => pushBucket st
          (m.hash_function_ kv.1 % m.count_threads_)
          (m.hash_function_ kv.1 % (3 * m.storage_size_)) kv)
        (List.replicate m.count_threads_
          (List.replicate (3 * m.storage_size_) []))
      storage_size_ := 3 * m.storage_size_ } := by
    refine ⟨hT, hTD, h3S29, hslen, hsshards, ?_, ?_, ?_⟩
    · -- placement invariant
      intro e he i hi kv hkv
      rw [hchar e i] at hkv
      rcases List.mem_append.1 hkv with hxl | hxr
      · rw [getBucket_replicate he hi] at hxl
        simp at hxl
      · have hcond := (List.mem_filter.1 hxr).2
        have hc2 : m.hash_function_ kv.1 % m.count_threads_ = e ∧
            m.hash_function_ kv.1 % (3 * m.storage_size_) = i := by
          simpa using hcond
        exact hc2
    · -- uniqueness
      intro kv hkv
      rw [hcount]
      exact WF_uniq h kv ((hmem kv).1 hkv)
    · -- size counter
      show m.size_ = _
      rw [WF_size h]
      have hlen := hcount (fun _ => true)
      rw [countP_true_eq_length, countP_true_eq_length] at hlen
      exact hlen.symm
  refine ⟨_, hRe, rfl, rfl, rfl, rfl, hcount, hmem, hwf, ?_⟩
  intro k
  cases hck : containsKey m k with
  | true =>
    rcases containsKey_iff_exists.1 hck with ⟨v, hv⟩
    have hv' : (k, v) ∈ allEntries ((allEntries m.storage_).foldl
        (fun st kv => pushBucket st
          (m.hash_function_ kv.1 % m.count_threads_)
          (m.hash_function_ kv.1 % (3 * m.storage_size_)) kv)
        (List.replicate m.count_threads_
          (List.replicate (3 * m.storage_size_) []))) := (hmem (k, v)).2 hv
    rw [Find_eq_of_mem hwf hv', Find_eq_of_mem h hv]
  | false =>
    have hck' : containsKey { m with
        storage_ := (allEntries m.storage_).foldl
          (fun st kv => pushBucket st
            (m.hash_function_ kv.1 % m.count_threads_)
            (m.hash_function_ kv.1 % (3 * m.storage_size_)) kv)
          (List.replicate m.count_threads_
            (List.replicate (3 * m.storage_size_) []))
        storage_size_ := 3 * m.storage_size_ } k = false := by
      apply containsKey_false_iff.2
      intro x hx
      exact containsKey_false_iff.1 hck x ((hmem x).1 hx)
    rw [Find_eq_of_not_contains hwf hck', Find_eq_of_not_contains h hck]

end RehashSpec

/-! ## Specification of `Insert` -/

section InsertSpec

variable [DecidableEq K] {D : Nat} {m : ConcurrentHashMap K V}

theorem Insert_present [Inhabited V] {k : K} (h : WF D m)
    (hck : containsKey m k = true) (v : V) :
    Insert D m k v = some (m, false) := by
  have hT0 : m.count_threads_ ≠ 0 := by have := WF_tpos h; omega
  have hS0 : m.storage_size_ ≠ 0 := by have := WF_spos h; omega
  simp only [ConcurrentHashMap.Insert, GetHash, if_neg hT0, if_neg hS0]
  rw [bucket_scan_iff_containsKey h k, hck]
  simp

/-- Well-formedness after appending a fresh key to its canonical bucket. -/
theorem WF_insert_push {k : K} {v : V} (h : WF D m)
    (hck : containsKey m k = false) :
    WF D { m with
      size_ := m.size_ + 1
      storage_ := pushBucket m.storage_
        (m.hash_function_ k % m.count_threads_)
        (m.hash_function_ k % m.storage_size_) (k, v) } := by
  have hT := WF_tpos h
  have hS0 := WF_spos h
  have heT : m.hash_function_ k % m.count_threads_ < m.count_threads_ :=
    Nat.mod_lt _ hT
  have hiS : m.hash_function_ k % m.storage_size_ < m.storage_size_ :=
    Nat.mod_lt _ hS0
  have he' : m.hash_function_ k % m.count_threads_ < m.storage_.length := by
    rw [WF_len h]; exact heT
  have hi' : m.hash_function_ k % m.storage_size_ <
      (m.storage_.getD (m.hash_function_ k % m.count_threads_) []).length := by
    rw [WF_shard_length h heT]; exact hiS
  have hmem := fun x => mem_allEntries_pushBucket (k, v) x he' hi'
  have hcnt := fun p => countP_allEntries_pushBucket p (k, v) he' hi'
  have hkey0 : (allEntries m.storage_).countP
      (fun p => decide (p.1 = k)) = 0 := by
    rw [List.countP_eq_zero]
    intro x hx
    simpa using containsKey_false_iff.1 hck x hx
  refine ⟨hT, ?_, ?_, ?_, ?_, ?_, ?_, ?_⟩
  · show m.count_threads_ ≤ D
    exact WF_tle h
  · show kDefaultSize ≤ m.storage_size_
    exact WF_sge h
  · rw [pushBucket, length_setBucket]
    exact WF_len h
  · exact shard_length_setBucket he' (WF_shlen h)
  · -- placement
    intro e1 he1 i1 hi1 kv1 hkv1
    by_cases hsame : e1 = m.hash_function_ k % m.count_threads_ ∧
        i1 = m.hash_function_ k % m.storage_size_
    · obtain ⟨rfl, rfl⟩ := hsame
      rw [pushBucket, getBucket_setBucket_self _ he' hi'] at hkv1
      rcases List.mem_append.1 hkv1 with hold | hnew
      · exact WF_placed h _ he1 _ hi1 kv1 hold
      · have : kv1 = (k, v) := by simpa using hnew
        subst this
        exact ⟨rfl, rfl⟩
    · have hne : e1 ≠ m.hash_function_ k % m.count_threads_ ∨
          i1 ≠ m.hash_function_ k % m.storage_size_ := by tauto
      rw [pushBucket, getBucket_setBucket_ne _ hne] at hkv1
      exact WF_placed h _ he1 _ hi1 kv1 hkv1
  · -- uniqueness
    intro kv1 hkv1
    rw [hcnt]
    rcases (hmem kv1).1 hkv1 with hold | rfl
    · by_cases hk1 : kv1.1 = k
      · exfalso
        exact containsKey_false_iff.1 hck kv1 hold hk1
      · have : (decide ((k, v).1 = kv1.1)) = false :=
          decide_eq_false (fun hc => hk1 hc.symm)
        rw [this]
        simpa using WF_uniq h kv1 hold
    · rw [hkey0]
      simp
  · -- size counter
    show m.size_ + 1 = (allEntries (pushBucket m.storage_
      (m.hash_function_ k % m.count_threads_)
      (m.hash_function_ k % m.storage_size_) (k, v))).length
    rw [WF_size h]
    have h2 : (allEntries (pushBucket m.storage_
        (m.hash_function_ k % m.count_threads_)
        (m.hash_function_ k % m.storage_size_) (k, v))).length =
        (allEntries m.storage_).length + 1 := by
      have h3 := hcnt (fun _ => true)
      rw [countP_true_eq_length, countP_true_eq_length] at h3
      simpa using h3
    rw [h2]

theorem Insert_fresh [Inhabited V] {k : K} (v : V) (h : WF D m)
    (hck : containsKey m k = false) :
    ∃ m', Insert D m k v = some (m', true) ∧ WF D m' ∧
      m'.size_ = m.size_ + 1 ∧
      m'.count_threads_ = m.count_threads_ ∧
      m'.hash_function_ = m.hash_function_ ∧
      (∀ p : K × V → Bool, (allEntries m'.storage_).countP p =
        (allEntries m.storage_).countP p + (if p (k, v) then 1 else 0)) ∧
      (∀ x : K × V, x ∈ allEntries m'.storage_ ↔
        x ∈ allEntries m.storage_ ∨ x = (k, v)) := by
  have hT0 : m.count_threads_ ≠ 0 := by have := WF_tpos h; omega
  have hS0 : m.storage_size_ ≠ 0 := by have := WF_spos h; omega
  have heT : m.hash_function_ k % m.count_threads_ < m.count_threads_ :=
    Nat.mod_lt _ (WF_tpos h)
  have hiS : m.hash_function_ k % m.storage_size_ < m.storage_size_ :=
    Nat.mod_lt _ (WF_spos h)
  have he' : m.hash_function_ k % m.count_threads_ < m.storage_.length := by
    rw [WF_len h]; exact heT
  have hi' : m.hash_function_ k % m.storage_size_ <
      (m.storage_.getD (m.hash_function_ k % m.count_threads_) []).length := by
    rw [WF_shard_length h heT]; exact hiS
  have hwfInt := WF_insert_push (v := v) h hck
  have hmem := fun x => mem_allEntries_pushBucket (k, v) x he' hi'
  have hcnt := fun p => countP_allEntries_pushBucket p (k, v) he' hi'
  have hany : (getBucket m.storage_ (m.hash_function_ k % m.count_threads_)
      (m.hash_function_ k % m.storage_size_)).any
      (fun p => decide (p.1 = k)) = false := by
    rw [bucket_scan_iff_containsKey h k]
    exact hck
  simp only [ConcurrentHashMap.Insert, GetHash, if_neg hT0, if_neg hS0, hany]
  rw [if_neg (by simp)]
  by_cases hlim : (getBucket (pushBucket m.storage_
      (m.hash_function_ k % m.count_threads_)
      (m.hash_function_ k % m.storage_size_) (k, v))
      (m.hash_function_ k % m.count_threads_)
      (m.hash_function_ k % m.storage_size_)).length < kLimitCollisions
  · rw [if_pos hlim]
    exact ⟨_, rfl, hwfInt, rfl, rfl, rfl, hcnt, hmem⟩
  · rw [if_neg hlim]
    obtain ⟨m2, hRe, hct, hhf, hsz, _, hcnt2, hmem2, hwf2, _⟩ :=
      Rehashing_spec hwfInt
    rw [hRe]
    refine ⟨m2, rfl, hwf2, by rw [hsz], by rw [hct], by rw [hhf], ?_, ?_⟩
    · intro p
      rw [hcnt2 p]
      exact hcnt p
    · intro x
      rw [hmem2 x]
      exact hmem x

end InsertSpec

/-! ## Specification of `Erase` -/

section EraseSpec

variable [DecidableEq K] {D : Nat} {m : ConcurrentHashMap K V}

theorem Erase_absent {k : K} (h : WF D m) (hck : containsKey m k = false) :
    Erase m k = some (m, false) := by
  have hT0 : m.count_threads_ ≠ 0 := by have := WF_tpos h; omega
  have hS0 : m.storage_size_ ≠ 0 := by have := WF_spos h; omega
  have heT : m.hash_function_ k % m.count_threads_ < m.count_threads_ :=
    Nat.mod_lt _ (WF_tpos h)
  have hiS : m.hash_function_ k % m.storage_size_ < m.storage_size_ :=
    Nat.mod_lt _ (WF_spos h)
  simp only [ConcurrentHashMap.Erase, GetHash, if_neg hT0, if_neg hS0]
  have hnone : findKeyIdx k (getBucket m.storage_
      (m.hash_function_ k % m.count_threads_)
      (m.hash_function_ k % m.storage_size_)) = none := by
    apply findKeyIdx_none.2
    intro x hx
    exact containsKey_false_iff.1 hck x
      (mem_allEntries_of_mem_bucket h heT hiS hx)
  rw [hnone]

theorem Erase_present {k : K} (h : WF D m) (hck : containsKey m k = true) :
    ∃ m' v', Erase m k = some (m', true) ∧ WF D m' ∧
      containsKey m' k = false ∧
      m.size_ = m'.size_ + 1 ∧
      m'.count_threads_ = m.count_threads_ ∧
      m'.storage_size_ = m.storage_size_ ∧
      m'.hash_function_ = m.hash_function_ ∧
      (k, v') ∈ allEntries m.storage_ ∧
      (∀ p : K × V → Bool, (allEntries m'.storage_).countP p +
        (if p (k, v') then 1 else 0) = (allEntries m.storage_).countP p) ∧
      (∀ x : K × V, x ∈ allEntries m'.storage_ → x ∈ allEntries m.storage_) := by
  have hT0 : m.count_threads_ ≠ 0 := by have := WF_tpos h; omega
  have hS0 : m.storage_size_ ≠ 0 := by have := WF_spos h; omega
  have heT : m.hash_function_ k % m.count_threads_ < m.count_threads_ :=
    Nat.mod_lt _ (WF_tpos h)
  have hiS : m.hash_function_ k % m.storage_size_ < m.storage_size_ :=
    Nat.mod_lt _ (WF_spos h)
  have he' : m.hash_function_ k % m.count_threads_ < m.storage_.length := by
    rw [WF_len h]; exact heT
  have hi' : m.hash_function_ k % m.storage_size_ <
      (m.storage_.getD (m.hash_function_ k % m.count_threads_) []).length := by
    rw [WF_shard_length h heT]; exact hiS
  obtain ⟨v, hv⟩ := containsKey_iff_exists.1 hck
  have hvb : (k, v) ∈ getBucket m.storage_
      (m.hash_function_ k % m.count_threads_)
      (m.hash_function_ k % m.storage_size_) := mem_canonicalBucket h hv
  rcases hfi : findKeyIdx k (getBucket m.storage_
      (m.hash_function_ k % m.count_threads_)
      (m.hash_function_ k % m.storage_size_)) with _ | j
  · exact absurd rfl (findKeyIdx_none.1 hfi (k, v) hvb)
  obtain ⟨hj, hkey⟩ := findKeyIdx_some hfi (k, v)
  have hremmem : (getBucket m.storage_
      (m.hash_function_ k % m.count_threads_)
      (m.hash_function_ k % m.storage_size_)).getD j (k, v) ∈
      getBucket m.storage_ (m.hash_function_ k % m.count_threads_)
      (m.hash_function_ k % m.storage_size_) := getD_mem hj
  have hremall := mem_allEntries_of_mem_bucket h heT hiS hremmem
  have hremk : ((getBucket m.storage_
      (m.hash_function_ k % m.count_threads_)
      (m.hash_function_ k % m.storage_size_)).getD j (k, v)) =
      (k, ((getBucket m.storage_ (m.hash_function_ k % m.count_threads_)
        (m.hash_function_ k % m.storage_size_)).getD j (k, v)).2) := by
    exact Prod.ext hkey rfl
  have hcnt : ∀ p : K × V → Bool,
      (allEntries (setBucket m.storage_
        (m.hash_function_ k % m.count_threads_)
        (m.hash_function_ k % m.storage_size_)
        (swapRemove (getBucket m.storage_
          (m.hash_function_ k % m.count_threads_)
          (m.hash_function_ k % m.storage_size_)) j))).countP p +
      (if p ((getBucket m.storage_ (m.hash_function_ k % m.count_threads_)
        (m.hash_function_ k % m.storage_size_)).getD j (k, v)) then 1 else 0) =
      (allEntries m.storage_).countP p := by
    intro p
    have h1 := countP_allEntries_setBucket p
      (swapRemove (getBucket m.storage_
        (m.hash_function_ k % m.count_threads_)
        (m.hash_function_ k % m.storage_size_)) j) he' hi'
    have h2 := countP_swapRemove p hj (k, v)
    omega
  have hsub : ∀ x ∈ allEntries (setBucket m.storage_
      (m.hash_function_ k % m.count_threads_)
      (m.hash_function_ k % m.storage_size_)
      (swapRemove (getBucket m.storage_
        (m.hash_function_ k % m.count_threads_)
        (m.hash_function_ k % m.storage_size_)) j)),
      x ∈ allEntries m.storage_ :=
    mem_allEntries_setBucket_subset he' hi' mem_swapRemove
  have hkeycnt : (allEntries m.storage_).countP
      (fun p => decide (p.1 = k)) = 1 := by
    have hub := WF_uniq_all h k
    have hlb : 0 < (allEntries m.storage_).countP (fun p => decide (p.1 = k)) :=
      List.countP_pos_iff.2 ⟨(k, v), hv, by simp⟩
    omega
  have hnewkey : (allEntries (setBucket m.storage_
      (m.hash_function_ k % m.count_threads_)
      (m.hash_function_ k % m.storage_size_)
      (swapRemove (getBucket m.storage_
        (m.hash_function_ k % m.count_threads_)
        (m.hash_function_ k % m.storage_size_)) j))).countP
      (fun p => decide (p.1 = k)) = 0 := by
    have h1 := hcnt (fun p => decide (p.1 = k))
    rw [if_pos (by rw [hkey]; simp)] at h1
    omega
  have hlenold : 0 < (allEntries m.storage_).length := by
    cases hl : allEntries m.storage_ with
    | nil => rw [hl] at hv; simp at hv
    | cons a l => simp [hl]
  have hlennew : (allEntries (setBucket m.storage_
      (m.hash_function_ k % m.count_threads_)
      (m.hash_function_ k % m.storage_size_)
      (swapRemove (getBucket m.storage_
        (m.hash_function_ k % m.count_threads_)
        (m.hash_function_ k % m.storage_size_)) j))).length + 1 =
      (allEntries m.storage_).length := by
    have h1 := hcnt (fun _ => true)
    rw [countP_true_eq_length, countP_true_eq_length, if_pos rfl] at h1
    exact h1
  have hwf : WF D { m with
      size_ := m.size_ - 1
      storage_ := setBucket m.storage_
        (m.hash_function_ k % m.count_threads_)
        (m.hash_function_ k % m.storage_size_)
        (swapRemove (getBucket m.storage_
          (m.hash_function_ k % m.count_threads_)
          (m.hash_function_ k % m.storage_size_)) j) } := by
    refine ⟨?_, ?_, ?_, ?_, ?_, ?_, ?_, ?_⟩
    · show 0 < m.count_threads_
      exact WF_tpos h
    · show m.count_threads_ ≤ D
      exact WF_tle h
    · show kDefaultSize ≤ m.storage_size_
      exact WF_sge h
    · rw [setBucket, List.length_set]
      exact WF_len h
    · exact shard_length_setBucket he' (WF_shlen h)
    · -- placement
      intro e1 he1 i1 hi1 kv1 hkv1
      by_cases hsame : e1 = m.hash_function_ k % m.count_threads_ ∧
          i1 = m.hash_function_ k % m.storage_size_
      · obtain ⟨rfl, rfl⟩ := hsame
        rw [getBucket_setBucket_self _ he' hi'] at hkv1
        exact WF_placed h _ he1 _ hi1 kv1 (mem_swapRemove kv1 hkv1)
      · have hne : e1 ≠ m.hash_function_ k % m.count_threads_ ∨
            i1 ≠ m.hash_function_ k % m.storage_size_ := by tauto
        rw [getBucket_setBucket_ne _ hne] at hkv1
        exact WF_placed h _ he1 _ hi1 kv1 hkv1
    · -- uniqueness
      intro kv1 hkv1
      show (allEntries (setBucket m.storage_
        (m.hash_function_ k % m.count_threads_)
        (m.hash_function_ k % m.storage_size_)
        (swapRemove (getBucket m.storage_
          (m.hash_function_ k % m.count_threads_)
          (m.hash_function_ k % m.storage_size_)) j))).countP
        (fun p => decide (p.1 = kv1.1)) ≤ 1
      have h1 := hcnt (fun p => decide (p.1 = kv1.1))
      have h2 := WF_uniq h kv1 (hsub kv1 hkv1)
      omega
    · -- size counter
      show m.size_ - 1 = (allEntries (setBucket m.storage_
        (m.hash_function_ k % m.count_threads_)
        (m.hash_function_ k % m.storage_size_)
        (swapRemove (getBucket m.storage_
          (m.hash_function_ k % m.count_threads_)
          (m.hash_function_ k % m.storage_size_)) j))).length
      rw [WF_size h]
      omega
  have hck' : containsKey { m with
      size_ := m.size_ - 1
      storage_ := setBucket m.storage_
        (m.hash_function_ k % m.count_threads_)
        (m.hash_function_ k % m.storage_size_)
        (swapRemove (getBucket m.storage_
          (m.hash_function_ k % m.count_threads_)
          (m.hash_function_ k % m.storage_size_)) j) } k = false := by
    show (allEntries (setBucket m.storage_ _ _ _)).any _ = false
    exact any_eq_false_of_countP_eq_zero hnewkey
  refine ⟨_, ((getBucket m.storage_ (m.hash_function_ k % m.count_threads_)
    (m.hash_function_ k % m.storage_size_)).getD j (k, v)).2,
    ?_, hwf, hck', ?_, rfl, rfl, rfl, ?_, ?_, hsub⟩
  · simp only [ConcurrentHashMap.Erase, GetHash, if_neg hT0, if_neg hS0]
    rw [hfi]
  · show m.size_ = m.size_ - 1 + 1
    rw [WF_size h]
    omega
  · rw [← hremk]
    exact hremall
  · intro p
    rw [← hremk]
    exact hcnt p

end EraseSpec

/-! ## `Clear`, constructors, and preservation along operation sequences -/

section RunSpec

variable [DecidableEq K] {D : Nat} {m : ConcurrentHashMap K V}

theorem WF_fresh (T S : Nat) (hT : 0 < T) (hTD : T ≤ D)
    (hS : kDefaultSize ≤ S) (hasher : K → Nat) :
    WF D ({ count_threads_ := T
            storage_size_ := S
            size_ := 0
            hash_function_ := hasher
            storage_ := List.replicate T (List.replicate S []) } :
      ConcurrentHashMap K V) := by
  refine ⟨hT, hTD, hS, ?_, ?_, ?_, ?_, ?_⟩
  · simp
  · intro sh hsh
    rw [List.eq_of_mem_replicate hsh]
    simp
  · intro e he i hi kv hkv
    rw [getBucket_replicate he hi] at hkv
    simp at hkv
  · intro kv hkv
    rw [allEntries_replicate] at hkv
    simp at hkv
  · rw [allEntries_replicate]
    rfl

theorem WF_Clear (hT : 0 < m.count_threads_) (hTD : m.count_threads_ ≤ D) :
    WF D (Clear m) :=
  WF_fresh m.count_threads_ kDefaultSize hT hTD (Nat.le_refl _)
    m.hash_function_

theorem WF_mkDefault (hD : 0 < D) (hasher : K → Nat) :
    WF D (mkDefault (V := V) D hasher) :=
  WF_fresh D kDefaultSize hD (Nat.le_refl _) (Nat.le_refl _) hasher

theorem WF_mkExpected (hD : 0 < D) (expected_size : Nat) (hasher : K → Nat) :
    WF D (mkExpected (V := V) D expected_size hasher) :=
  WF_fresh D (max kDefaultSize ((expected_size + D - 1) / D)) hD
    (Nat.le_refl _) (Nat.le_max_left _ _) hasher

theorem WF_mkExpectedThreads {t : Nat} (ht : 0 < min D t)
    (expected_size : Nat) (hasher : K → Nat) :
    WF D (mkExpectedThreads (V := V) D expected_size t hasher) :=
  WF_fresh (min D t)
    (max kDefaultSize ((expected_size + min D t - 1) / min D t)) ht
    (Nat.min_le_left _ _) (Nat.le_max_left _ _) hasher

omit [DecidableEq K] in
/-- On the domain where the capped thread count is nonzero — the only domain
on which the source constructor is free of its division-by-zero fault — the
guarded constructor agrees with the totalized one. -/
theorem mkExpectedThreadsChecked_eq {t : Nat} (ht : 0 < min D t)
    (expected_size : Nat) (hasher : K → Nat) :
    ConcurrentHashMap.mkExpectedThreadsChecked (V := V) D expected_size t
        hasher =
      some (ConcurrentHashMap.mkExpectedThreads D expected_size t hasher) := by
  have ht0 : min D t ≠ 0 := by omega
  simp only [ConcurrentHashMap.mkExpectedThreadsChecked,
    ConcurrentHashMap.mkExpectedThreads, if_neg ht0]

theorem WF_runOp [Inhabited V] (h : WF D m) {op : Op K V}
    {m' : ConcurrentHashMap K V} (hrun : runOp D m op = some m') :
    WF D m' := by
  cases op with
  | insert k v =>
    cases hck : containsKey m k with
    | false =>
      obtain ⟨m2, heq, hwf2, _⟩ := Insert_fresh v h hck
      rw [runOp, heq] at hrun
      simp at hrun
      rwa [← hrun]
    | true =>
      rw [runOp, Insert_present h hck v] at hrun
      simp at hrun
      rwa [← hrun]
  | erase k =>
    cases hck : containsKey m k with
    | false =>
      rw [runOp, Erase_absent h hck] at hrun
      simp at hrun
      rwa [← hrun]
    | true =>
      obtain ⟨m2, v', heq, hwf2, _⟩ := Erase_present h hck
      rw [runOp, heq] at hrun
      simp at hrun
      rwa [← hrun]
  | find k =>
    rw [runOp] at hrun
    cases hF : Find m k with
    | none => rw [hF] at hrun; simp at hrun
    | some r =>
      rw [hF] at hrun
      simp at hrun
      rwa [← hrun]
  | atOp k =>
    rw [runOp] at hrun
    cases hF : At m k with
    | none => rw [hF] at hrun; simp at hrun
    | some r =>
      rw [hF] at hrun
      simp at hrun
      rwa [← hrun]
  | clear =>
    rw [runOp] at hrun
    simp at hrun
    rw [← hrun]
    exact WF_Clear (WF_tpos h) (WF_tle h)
  | rehash =>
    obtain ⟨m2, heq, _, _, _, _, _, _, hwf2, _⟩ := Rehashing_spec h
    rw [runOp, heq] at hrun
    simp at hrun
    rwa [← hrun]

theorem WF_run [Inhabited V] {ops : List (Op K V)}
    {m' : ConcurrentHashMap K V} (h : WF D m)
    (hrun : run D m ops = some m') : WF D m' := by
  induction ops generalizing m with
  | nil =>
    simp only [run] at hrun
    injection hrun with hrun
    rwa [← hrun]
  | cons op ops ih =>
    simp only [run] at hrun
    cases hop : runOp D m op with
    | none => rw [hop] at hrun; simp at hrun
    | some m1 =>
      rw [hop] at hrun
      exact ih (WF_runOp h hop) hrun

end RunSpec

/-! ## Counting inserts and erases along a sequence -/

section Mixture

/-- Number of insert operations in a sequence. -/
def insCount : List (Op K V) → Nat
  | [] => 0
  | Op.insert _ _ :: ops => insCount ops + 1
  | _ :: ops => insCount ops

/-- Number of erase operations in a sequence. -/
def ersCount : List (Op K V) → Nat
  | [] => 0
  | Op.erase _ :: ops => ersCount ops + 1
  | _ :: ops => ersCount ops

/-- A sequence is a valid mixture when it consists only of inserts of keys
absent at their point of execution and erases of keys present at their point
of execution (the shape of the spec's size-accounting property). -/
def mixtureOk [DecidableEq K] (D : Nat) (m : ConcurrentHashMap K V) :
    List (Op K V) → Bool
  | [] => true
  | Op.insert k v :: ops =>
    !containsKey m k &&
      (match Insert D m k v with
       | some mr => mixtureOk D mr.1 ops
       | none => false)
  | Op.erase k :: ops =>
    containsKey m k &&
      (match Erase m k with
       | some mr => mixtureOk D mr.1 ops
       | none => false)
  | _ :: _ => false

theorem mixture_run [DecidableEq K] [Inhabited V] {D : Nat} :
    ∀ (ops : List (Op K V)) (m : ConcurrentHashMap K V), WF D m →
      mixtureOk D m ops = true →
      ∃ m', run D m ops = some m' ∧ WF D m' ∧
        m'.size_ + ersCount ops = m.size_ + insCount ops := by
  intro ops
  induction ops with
  | nil =>
    intro m hwf _
    exact ⟨m, rfl, hwf, rfl⟩
  | cons op ops ih =>
    intro m hwf hmix
    cases op with
    | insert k v =>
      simp only [mixtureOk, Bool.and_eq_true] at hmix
      obtain ⟨h1, h2⟩ := hmix
      have hck : containsKey m k = false := by
        cases hc : containsKey m k
        · rfl
        · rw [hc] at h1; simp at h1
      obtain ⟨m2, heq, hwf2, hsz2, _, _, _, _⟩ := Insert_fresh v hwf hck
      rw [heq] at h2
      obtain ⟨m', hrun, hwf', hacc⟩ := ih m2 hwf2 h2
      refine ⟨m', ?_, hwf', ?_⟩
      · simp only [run, runOp, heq, Option.map_some]
        exact hrun
      · simp only [insCount, ersCount]
        omega
    | erase k =>
      simp only [mixtureOk, Bool.and_eq_true] at hmix
      obtain ⟨h1, h2⟩ := hmix
      obtain ⟨m2, v', heq, hwf2, _, hsz2, _, _, _, _, _, _⟩ :=
        Erase_present hwf h1
      rw [heq] at h2
      obtain ⟨m', hrun, hwf', hacc⟩ := ih m2 hwf2 h2
      refine ⟨m', ?_, hwf', ?_⟩
      · simp only [run, runOp, heq, Option.map_some]
        exact hrun
      · simp only [insCount, ersCount]
        omega
    | find k => simp [mixtureOk] at hmix
    | atOp k => simp [mixtureOk] at hmix
    | clear => simp [mixtureOk] at hmix
    | rehash => simp [mixtureOk] at hmix

end Mixture

/-! ## Ceiling division (spec-side formulation) -/

section CeilDiv

/-- Modelled from the spec wording: the ceiling of `a / b`, written
independently of the implementation idiom `(a + b - 1) / b`. -/
def ceilDiv (a b : Nat) : Nat := a / b + (if a % b = 0 then 0 else 1)

theorem rehash_div_eq {T : Nat} (hT : 0 < T) (S : Nat) :
    (S * T * 3 + T - 1) / T = 3 * S := by
  have h1 : S * T * 3 = T * (3 * S) := by ring
  rw [h1]
  have h2 : T * (3 * S) + T - 1 = (T - 1) + T * (3 * S) := by omega
  rw [h2, Nat.add_mul_div_left _ _ hT, Nat.div_eq_of_lt (by omega)]
  omega

theorem ceil_idiom (a : Nat) {b : Nat} (hb : 0 < b) :
    (a + b - 1) / b = ceilDiv a b := by
  have hmod := Nat.mod_lt a hb
  have hdecomp := Nat.div_add_mod a b
  unfold ceilDiv
  by_cases hr : a % b = 0
  · have hx : a + b - 1 = (b - 1) + b * (a / b) := by omega
    rw [hx, Nat.add_mul_div_left _ _ hb, Nat.div_eq_of_lt (by omega), hr]
    simp
  · have hmul : b * (a / b + 1) = b * (a / b) + b := by ring
    have hx : a + b - 1 = (a % b - 1) + b * (a / b + 1) := by omega
    rw [hx, Nat.add_mul_div_left _ _ hb, Nat.div_eq_of_lt (by omega),
      if_neg hr]
    omega

end CeilDiv

/-! ## Concrete example states used to instantiate the theorems -/

section Examples

/-- Identity hash on naturals. -/
def exIdHash : Nat → Nat := fun n => n

/-- A freshly constructed two-shard map. -/
def exMap2 : ConcurrentHashMap Nat Nat := ConcurrentHashMap.mkDefault 2 exIdHash

/-- A two-shard map holding the single entry `(5, 7)` in its canonical bucket
(shard `5 % 2 = 1`, bucket `5 % 29 = 5`). -/
def exMapWith5 : ConcurrentHashMap Nat Nat :=
  { count_threads_ := 2
    storage_size_ := 29
    size_ := 1
    hash_function_ := exIdHash
    storage_ := pushBucket (List.replicate 2 (List.replicate 29 [])) 1 5 (5, 7) }

/-- A small mixed operation sequence. -/
def exOps : List (Op Nat Nat) :=
  [Op.insert 1 10, Op.insert 30 20, Op.erase 1, Op.find 30, Op.rehash]

/-- The state reached by running `exOps` on `exMap2`. -/
def exRun : ConcurrentHashMap Nat Nat := (run 2 exMap2 exOps).getD exMap2

/-- An insert/erase mixture: two fresh inserts, one erase of a present key. -/
def exMix : List (Op Nat Nat) := [Op.insert 1 10, Op.insert 2 20, Op.erase 1]

end Examples

/-! ## Claim theorems -/

section Claims

/-- C1: Resize transparency.  For every well-formed (sequentially reachable)
map state, the resize protocol — run explicitly as `Rehashing`, or triggered
by an `Insert` that pushes a bucket past the collision limit — loses no entry
and duplicates no entry (the multiset of `(key, value)` entries is
preserved), leaves the size counter unchanged, and every key findable before
with some value is still findable afterwards with that same value. -/
theorem C1_resize_transparency [DecidableEq K] [Inhabited V] {D : Nat}
    {m : ConcurrentHashMap K V} (h : WF D m) :
    (∃ m', Rehashing D m = some m' ∧
      m'.Size = m.Size ∧
      (∀ p : K × V → Bool, (allEntries m'.storage_).countP p =
        (allEntries m.storage_).countP p) ∧
      (∀ (k : K) (v : V), Find m k = some (true, v) →
        Find m' k = some (true, v))) ∧
    (∀ (k : K) (v : V), containsKey m k = false →
      ∃ m'', Insert D m k v = some (m'', true) ∧
        ∀ (k' : K) (v' : V), Find m k' = some (true, v') → k' ≠ k →
          Find m'' k' = some (true, v')) := by
  constructor
  · obtain ⟨m', heq, _, _, hsz, _, hcnt, _, _, hfind⟩ := Rehashing_spec h
    refine ⟨m', heq, hsz, hcnt, ?_⟩
    intro k v hf
    rw [hfind k]
    exact hf
  · intro k v hck
    obtain ⟨m'', heq, hwf'', _, _, _, _, hmem⟩ := Insert_fresh v h hck
    refine ⟨m'', heq, ?_⟩
    intro k' v' hf hne
    have hv' : (k', v') ∈ allEntries m.storage_ := mem_of_Find_eq h hf
    have : (k', v') ∈ allEntries m''.storage_ :=
      (hmem (k', v')).2 (Or.inl hv')
    exact Find_eq_of_mem hwf'' this

/-- C1 witness: the theorem applied to the concrete one-entry map. -/
theorem C1_resize_transparency_witness :
    (∃ m', Rehashing 2 exMapWith5 = some m' ∧
      m'.Size = exMapWith5.Size ∧
      (∀ p : Nat × Nat → Bool, (allEntries m'.storage_).countP p =
        (allEntries exMapWith5.storage_).countP p) ∧
      (∀ k v : Nat, Find exMapWith5 k = some (true, v) →
        Find m' k = some (true, v))) ∧
    (∀ k v : Nat, containsKey exMapWith5 k = false →
      ∃ m'', Insert 2 exMapWith5 k v = some (m'', true) ∧
        ∀ k' v' : Nat, Find exMapWith5 k' = some (true, v') → k' ≠ k →
          Find m'' k' = some (true, v')) :=
  C1_resize_transparency (by decide)

/-- C2: Uniqueness invariant.  After any finite sequence of operations run
sequentially from a freshly constructed map, every key has at most one entry
in the whole structure, and a key occurring in two (shard, bucket) slots
forces those slots to coincide. -/
theorem C2_uniqueness [DecidableEq K] [Inhabited V] {D : Nat}
    (hD : 0 < D) (hasher : K → Nat) (ops : List (Op K V))
    (m : ConcurrentHashMap K V)
    (hrun : run D (ConcurrentHashMap.mkDefault D hasher) ops = some m) :
    (∀ k : K, (allEntries m.storage_).countP
      (fun p => decide (p.1 = k)) ≤ 1) ∧
    (∀ (k : K) (e i e' i' : Nat) (v v' : V),
      e < m.count_threads_ → i < m.storage_size_ →
      e' < m.count_threads_ → i' < m.storage_size_ →
      (k, v) ∈ getBucket m.storage_ e i →
      (k, v') ∈ getBucket m.storage_ e' i' →
      e = e' ∧ i = i') := by
  have hwf := WF_run (WF_mkDefault hD hasher) hrun
  constructor
  · exact fun k => WF_uniq_all hwf k
  · intro k e i e' i' v v' he hi he' hi' hm hm'
    obtain ⟨ha1, ha2⟩ := WF_placed hwf e he i hi _ hm
    obtain ⟨hb1, hb2⟩ := WF_placed hwf e' he' i' hi' _ hm'
    exact ⟨by rw [← ha1, ← hb1], by rw [← ha2, ← hb2]⟩

/-- C2 witness: the theorem applied to a concrete five-operation run. -/
theorem C2_uniqueness_witness :
    (∀ k : Nat, (allEntries exRun.storage_).countP
      (fun p => decide (p.1 = k)) ≤ 1) ∧
    (∀ (k e i e' i' : Nat) (v v' : Nat),
      e < exRun.count_threads_ → i < exRun.storage_size_ →
      e' < exRun.count_threads_ → i' < exRun.storage_size_ →
      (k, v) ∈ getBucket exRun.storage_ e i →
      (k, v') ∈ getBucket exRun.storage_ e' i' →
      e = e' ∧ i = i') :=
  C2_uniqueness (D := 2) (by decide) exIdHash exOps exRun rfl

/-- C3: Insert no-overwrite atomicity.  Inserting an already-present key
returns `false` and leaves the entire map state (stored value, all other
entries, size counter) untouched; inserting an absent key returns `true`. -/
theorem C3_insert_no_overwrite [DecidableEq K] [Inhabited V] {D : Nat}
    {m : ConcurrentHashMap K V} (h : WF D m) (k : K) (v : V) :
    (containsKey m k = true → Insert D m k v = some (m, false)) ∧
    (containsKey m k = false → ∃ m', Insert D m k v = some (m', true)) := by
  constructor
  · intro hck
    exact Insert_present h hck v
  · intro hck
    obtain ⟨m', heq, _⟩ := Insert_fresh v h hck
    exact ⟨m', heq⟩

/-- C3 witness: inserting present key 5 and absent key 4 into the concrete
one-entry map. -/
theorem C3_insert_no_overwrite_witness :
    (Insert 2 exMapWith5 5 9 = some (exMapWith5, false)) ∧
    (∃ m', Insert 2 exMapWith5 4 9 = some (m', true)) :=
  ⟨(C3_insert_no_overwrite (by decide) 5 9).1 (by decide),
   (C3_insert_no_overwrite (by decide) 4 9).2 (by decide)⟩

/-- C4 counterexample: the claim as stated fails when the key is already
present with a different value.  After `insert(0, 5)`, a second
`insert(0, 7)` followed by `find(0)` yields `(true, 5)`, not `(true, 7)`:
insert never overwrites. -/
theorem C4_roundtrip_counterexample :
    (Option.bind (Insert 1 (ConcurrentHashMap.mkDefault 1 exIdHash :
        ConcurrentHashMap Nat Nat) 0 5)
      (fun r => Option.bind (Insert 1 r.1 0 7)
        (fun r2 => Find r2.1 0))) = some (true, 5) ∧
    ((true, 5) : Bool × Nat) ≠ ((true, 7) : Bool × Nat) := by
  constructor
  · rfl
  · decide

/-- C4 (amended): for every well-formed map state in which `k` is *not
already present*, `insert(k, v)` followed by `find(k)` (single-threaded, no
intervening erase) yields `(true, v)`. -/
theorem C4_insert_find_roundtrip [DecidableEq K] [Inhabited V] {D : Nat}
    {m : ConcurrentHashMap K V} (h : WF D m) (k : K) (v : V)
    (hck : containsKey m k = false) :
    ∃ m', Insert D m k v = some (m', true) ∧ Find m' k = some (true, v) := by
  obtain ⟨m', heq, hwf', _, _, _, _, hmem⟩ := Insert_fresh v h hck
  exact ⟨m', heq, Find_eq_of_mem hwf' ((hmem (k, v)).2 (Or.inr rfl))⟩

/-- C4 witness: the amended round trip at a fresh key of the concrete map. -/
theorem C4_insert_find_roundtrip_witness :
    ∃ m', Insert 2 exMapWith5 4 9 = some (m', true) ∧
      Find m' 4 = some (true, 9) :=
  C4_insert_find_roundtrip (by decide) 4 9 (by decide)

/-- C5: Erase and size accounting.  Erasing an absent key returns `false`
and changes nothing; erasing a present key returns `true`, removes the key,
and decrements `Size` by exactly one; and a sequential mixture of `N`
inserts of fresh keys and `M` erases of present keys run from a fresh map
ends with `Size = N - M`. -/
theorem C5_erase_size_accounting [DecidableEq K] [Inhabited V] {D : Nat} :
    (∀ (m : ConcurrentHashMap K V) (k : K), WF D m →
      (containsKey m k = false → Erase m k = some (m, false)) ∧
      (containsKey m k = true → ∃ m', Erase m k = some (m', true) ∧
        containsKey m' k = false ∧ m.Size = m'.Size + 1)) ∧
    (∀ (hasher : K → Nat) (ops : List (Op K V)), 0 < D →
      mixtureOk D (ConcurrentHashMap.mkDefault D hasher) ops = true →
      ∃ m', run D (ConcurrentHashMap.mkDefault D hasher) ops = some m' ∧
        m'.Size = insCount ops - ersCount ops) := by
  constructor
  · intro m k hwf
    constructor
    · intro hck
      exact Erase_absent hwf hck
    · intro hck
      obtain ⟨m', v', heq, _, hck', hsz, _⟩ := Erase_present hwf hck
      exact ⟨m', heq, hck', hsz⟩
  · intro hasher ops hD hmix
    obtain ⟨m', hrun, _, hacc⟩ :=
      mixture_run ops _ (WF_mkDefault hD hasher) hmix
    refine ⟨m', hrun, ?_⟩
    have h0 : (ConcurrentHashMap.mkDefault (V := V) D hasher).size_ = 0 := rfl
    unfold ConcurrentHashMap.Size
    omega

/-- C5 witness: erase of an absent and of a present key on the concrete
one-entry map, and a concrete 2-insert/1-erase mixture ending at size 1. -/
theorem C5_erase_size_accounting_witness :
    (Erase exMapWith5 4 = some (exMapWith5, false)) ∧
    (∃ m', Erase exMapWith5 5 = some (m', true) ∧
      containsKey m' 5 = false ∧ exMapWith5.Size = m'.Size + 1) ∧
    (∃ m', run 2 (ConcurrentHashMap.mkDefault 2 exIdHash) exMix = some m' ∧
      m'.Size = insCount exMix - ersCount exMix) :=
  ⟨((C5_erase_size_accounting (D := 2)).1 exMapWith5 4 (by decide)).1
      (by decide),
   ((C5_erase_size_accounting (D := 2)).1 exMapWith5 5 (by decide)).2
      (by decide),
   (C5_erase_size_accounting (D := 2)).2 exIdHash exMix (by decide)
      (by decide)⟩

/-- C6: Absence handling.  For a key not present, `Find` returns
`(false, default)` without failing while `At` raises the out-of-range
"key not found" error; for a present key `At` returns the stored value; and
`At`'s error is raised exactly on absent keys (the sole failure of the
interface). -/
theorem C6_absence_handling [DecidableEq K] [Inhabited V] {D : Nat}
    {m : ConcurrentHashMap K V} (h : WF D m) (k : K) :
    (containsKey m k = false →
      Find m k = some (false, default) ∧
      At m k = some (Except.error "this key has not value")) ∧
    (∀ v : V, (k, v) ∈ allEntries m.storage_ →
      At m k = some (Except.ok v)) ∧
    ((At m k = some (Except.error "this key has not value")) ↔
      containsKey m k = false) := by
  refine ⟨?_, ?_, ?_⟩
  · intro hck
    exact ⟨Find_eq_of_not_contains h hck, At_eq_of_not_contains h hck⟩
  · intro v hv
    exact At_eq_of_mem h hv
  · constructor
    · intro hat
      cases hck : containsKey m k with
      | false => rfl
      | true =>
        obtain ⟨v, hv⟩ := containsKey_iff_exists.1 hck
        rw [At_eq_of_mem h hv] at hat
        simp at hat
    · exact At_eq_of_not_contains h

/-- C6 witness: absent key 4 and present key 5 of the concrete map. -/
theorem C6_absence_handling_witness :
    (Find exMapWith5 4 = some (false, default) ∧
      At exMapWith5 4 = some (Except.error "this key has not value")) ∧
    (At exMapWith5 5 = some (Except.ok 7)) ∧
    ((At exMapWith5 5 = some (Except.error "this key has not value")) ↔
      containsKey exMapWith5 5 = false) :=
  ⟨(C6_absence_handling (D := 2) (by decide) 4).1 (by decide),
   (C6_absence_handling (D := 2) (by decide) 5).2.1 7 (by decide),
   (C6_absence_handling (D := 2) (by decide) 5).2.2⟩

/-- C7: Resize sizing.  The resize keeps the shard count, computes the new
total bucket budget as `old_bucket_count × shard_count × 3`, and sets the
bucket count per shard to the ceiling of that budget over the shard count —
which is exactly three times the old bucket count. -/
theorem C7_resize_sizing [DecidableEq K] [Inhabited V] {D : Nat}
    {m : ConcurrentHashMap K V} (h : WF D m) :
    ∃ m', Rehashing D m = some m' ∧
      m'.count_threads_ = m.count_threads_ ∧
      m'.storage_size_ =
        ceilDiv (m.storage_size_ * m.count_threads_ * 3) m.count_threads_ ∧
      m'.storage_size_ = 3 * m.storage_size_ ∧
      m'.count_threads_ * m'.storage_size_ =
        3 * (m.count_threads_ * m.storage_size_) := by
  obtain ⟨m', heq, hct, _, _, hss, _⟩ := Rehashing_spec h
  refine ⟨m', heq, hct, ?_, hss, ?_⟩
  · rw [hss, ← ceil_idiom _ (WF_tpos h), rehash_div_eq (WF_tpos h)]
  · rw [hct, hss]
    ring

/-- C7 witness: the sizing equations at the concrete one-entry map. -/
theorem C7_resize_sizing_witness :
    ∃ m', Rehashing 2 exMapWith5 = some m' ∧
      m'.count_threads_ = exMapWith5.count_threads_ ∧
      m'.storage_size_ = ceilDiv (exMapWith5.storage_size_ *
        exMapWith5.count_threads_ * 3) exMapWith5.count_threads_ ∧
      m'.storage_size_ = 3 * exMapWith5.storage_size_ ∧
      m'.count_threads_ * m'.storage_size_ =
        3 * (exMapWith5.count_threads_ * exMapWith5.storage_size_) :=
  C7_resize_sizing (by decide)

/-- C8: Construction sizing policy.  With an expected entry count the bucket
count per shard is the ceiling of `expected / shard_count`, floored at the
default 29; with a desired shard count as well, the shard count is
`min(desired, default)` and never exceeds the default; and a zero expected
size raises no error, yielding the default bucket count 29. -/
theorem C8_construction_sizing {K V : Type} [DecidableEq K] {D : Nat}
    (hD : 0 < D) (expected_size t : Nat) (hasher : K → Nat) :
    ((ConcurrentHashMap.mkExpected (V := V) D expected_size
        hasher).storage_size_ = max kDefaultSize (ceilDiv expected_size D)) ∧
    ((ConcurrentHashMap.mkExpectedThreads (V := V) D expected_size t
        hasher).count_threads_ = min D t) ∧
    ((ConcurrentHashMap.mkExpectedThreads (V := V) D expected_size t
        hasher).count_threads_ ≤ D) ∧
    (0 < min D t →
      (ConcurrentHashMap.mkExpectedThreads (V := V) D expected_size t
        hasher).storage_size_ =
        max kDefaultSize (ceilDiv expected_size (min D t))) ∧
    ((ConcurrentHashMap.mkExpected (V := V) D 0 hasher).storage_size_ =
      kDefaultSize) ∧
    WF D (ConcurrentHashMap.mkExpected (V := V) D 0 hasher) := by
  refine ⟨?_, rfl, Nat.min_le_left _ _, ?_, ?_, WF_mkExpected hD 0 hasher⟩
  · show max kDefaultSize ((expected_size + D - 1) / D) = _
    rw [ceil_idiom _ hD]
  · intro ht
    show max kDefaultSize ((expected_size + min D t - 1) / min D t) = _
    rw [ceil_idiom _ ht]
  · show max kDefaultSize ((0 + D - 1) / D) = kDefaultSize
    have hz : (0 + D - 1) / D = 0 := Nat.div_eq_of_lt (by omega)
    rw [hz]
    exact Nat.max_eq_left (Nat.zero_le _)

/-- C8 witness: concrete construction with default level 4, expected size
100, desired shard count 2. -/
theorem C8_construction_sizing_witness :
    ((ConcurrentHashMap.mkExpected (V := Nat) 4 100
        exIdHash).storage_size_ = max kDefaultSize (ceilDiv 100 4)) ∧
    ((ConcurrentHashMap.mkExpectedThreads (V := Nat) 4 100 2
        exIdHash).count_threads_ = min 4 2) ∧
    ((ConcurrentHashMap.mkExpectedThreads (V := Nat) 4 100 2
        exIdHash).count_threads_ ≤ 4) ∧
    (0 < min 4 2 →
      (ConcurrentHashMap.mkExpectedThreads (V := Nat) 4 100 2
        exIdHash).storage_size_ =
        max kDefaultSize (ceilDiv 100 (min 4 2))) ∧
    ((ConcurrentHashMap.mkExpected (V := Nat) 4 0 exIdHash).storage_size_ =
      kDefaultSize) ∧
    WF 4 (ConcurrentHashMap.mkExpected (V := Nat) 4 0 exIdHash) :=
  C8_construction_sizing (by decide) 100 2 exIdHash

/-- C9: Clear resets fully.  After `Clear`, the size counter is zero, the
bucket arrays are empty arrays of the default bucket count 29 with the shard
count unchanged, and no key is found by `Find` or `At`. -/
theorem C9_clear_resets [DecidableEq K] [Inhabited V] {D : Nat}
    {m : ConcurrentHashMap K V} (h : WF D m) :
    (Clear m).Size = 0 ∧
    (Clear m).storage_size_ = kDefaultSize ∧
    (Clear m).count_threads_ = m.count_threads_ ∧
    (Clear m).storage_ = List.replicate m.count_threads_
      (List.replicate kDefaultSize []) ∧
    (∀ k : K, Find (Clear m) k = some (false, default) ∧
      At (Clear m) k = some (Except.error "this key has not value")) := by
  have hwfc := WF_Clear (WF_tpos h) (WF_tle h)
  refine ⟨rfl, rfl, rfl, rfl, ?_⟩
  intro k
  have hck : containsKey (Clear m) k = false := by
    unfold containsKey
    rw [show (Clear m).storage_ = List.replicate m.count_threads_
      (List.replicate kDefaultSize []) from rfl, allEntries_replicate]
    rfl
  exact ⟨Find_eq_of_not_contains hwfc hck, At_eq_of_not_contains hwfc hck⟩

/-- C9 witness: clearing the concrete one-entry map; key 5 is gone. -/
theorem C9_clear_resets_witness :
    (Clear exMapWith5).Size = 0 ∧
    (Clear exMapWith5).storage_size_ = kDefaultSize ∧
    (Clear exMapWith5).count_threads_ = exMapWith5.count_threads_ ∧
    (Clear exMapWith5).storage_ = List.replicate exMapWith5.count_threads_
      (List.replicate kDefaultSize []) ∧
    (∀ k : Nat, Find (Clear exMapWith5) k = some (false, default) ∧
      At (Clear exMapWith5) k =
        some (Except.error "this key has not value")) :=
  C9_clear_resets (D := 2) (by decide)

/-- C10 counterexample: with a zero concurrency hint the capped shard count
`min(default, 0)` is zero, and the three-argument constructor itself then
divides by that zero count while computing the bucket count — construction
faults (`none`) before any operation can run, so no zero-shard map is ever
handed to `Insert`, `Erase`, `Find`, `At` or `Rehashing`, contrary to the
claim that the fault is first reached in `GetHash` during subsequent
operations. -/
theorem C10_zero_hint_counterexample :
    min 4 0 = 0 ∧
    ConcurrentHashMap.mkExpectedThreadsChecked (V := Nat) 4 10 0 exIdHash =
      none := by
  exact ⟨rfl, rfl⟩

/-- C10 (amended): if the map is constructed with a desired shard
(concurrency) count of zero, the capped shard count `min(default, 0)` is
zero and the constructor's own bucket-count computation
`(expected_size + count_threads_ - 1) / count_threads_` divides by that
zero — an unguarded division by zero reached at construction time, before
any operation runs (`GetHash`'s `mod 0` branch being the same error class);
the spec's tolerance of degenerate inputs does not extend to a zero
concurrency hint. -/
theorem C10_zero_concurrency_hint {K V : Type} [DecidableEq K]
    (D expected_size : Nat) (hasher : K → Nat)
    (m : ConcurrentHashMap K V) (k : K) :
    min D 0 = 0 ∧
    ConcurrentHashMap.mkExpectedThreadsChecked (V := V) D expected_size 0
      hasher = none ∧
    GetHash m k 0 = none := by
  refine ⟨Nat.min_zero D, ?_, rfl⟩
  simp [ConcurrentHashMap.mkExpectedThreadsChecked, Nat.min_zero]

end Claims

end LockFreeHashTable
